import Mathlib

/-!
# Verification of the UIUC prerequisite-text parsing core

This file gives a shallow embedding, in Lean 4, of the text-to-tree
prerequisite parsing engine of the `uiuc-course-graph` repository
(`scripts/parse_course_prereqs.py`, `scripts/analyze_prereqs.py`,
`scripts/build_final_parsed.py`) and proves the specified properties of it.

Texts are modelled as `List Char`.  The Python `re` patterns used by the
source are fixed and concrete, so each one is embedded as a dedicated
executable matcher whose backtracking behaviour has been resolved by hand
to a deterministic scan (the resolution is noted at each definition).
Character classes `\w` and `\s` are modelled at their ASCII meaning; the
catalog texts the scripts process are ASCII, and no claim below depends on
non-ASCII characters.

All recursive text functions are written with an explicit fuel parameter
(always called with `length + 1`) so that they are structurally recursive
and reduce inside the kernel, allowing concrete instances to be settled by
`rfl`/`decide`.
-/

namespace UIUC

/-! ## Character classes (ASCII reading of Python `[A-Z]`, `\d`, `\w`, `\s`) -/

/-- `[A-Z]` of the course-token pattern: an ASCII uppercase letter. -/
def isUpperC (c : Char) : Bool := 'A' ≤ c && c ≤ 'Z'

/-- `\d`: an ASCII digit. -/
def isDigitC (c : Char) : Bool := '0' ≤ c && c ≤ '9'

/-- `\w` (word character, used by `\b` boundaries): ASCII letter, digit or
underscore. -/
def isWordC (c : Char) : Bool :=
  ('A' ≤ c && c ≤ 'Z') || ('a' ≤ c && c ≤ 'z') || ('0' ≤ c && c ≤ '9') || c = '_'

/-- `\s`: ASCII whitespace as matched by Python `\s` on ASCII text. -/
def isWS (c : Char) : Bool :=
  c = ' ' || c = '\t' || c = '\n' || c = '\x0d' || c = '\x0b' || c = '\x0c'

/-- Lowercasing a text, modelling Python `str.lower` on ASCII text. -/
def lowerL (l : List Char) : List Char := l.map Char.toLower

/-- Python `str.strip()`: drop whitespace from both ends. -/
def stripL (l : List Char) : List Char :=
  ((l.dropWhile isWS).reverse.dropWhile isWS).reverse

/-! ## `normalize_space` — `re.sub(r"\s+", " ", s).strip()`

Collapses every whitespace run to a single space and trims the ends:
the result is the non-whitespace words of the input joined by single
spaces. -/

/-- Fueled worker for `normSpace`; `fuel` strictly exceeds `l.length`. -/
def normSpaceAux : Nat → List Char → List Char
  | 0, _ => []
  | fuel + 1, l =>
    let l' := l.dropWhile isWS
    match l' with
    | [] => []
    | c :: rest =>
      let w := c :: rest.takeWhile (fun d => !isWS d)
      let r := rest.dropWhile (fun d => !isWS d)
      match normSpaceAux fuel r with
      | [] => w
      | n => w ++ ' ' :: n

/-- `normalize_space` from `parse_course_prereqs.py`. -/
def normSpace (l : List Char) : List Char := normSpaceAux (l.length + 1) l

/-! ## Splitting on a separator character

`re.split(r";+", text)` and `re.split(r",+", clause)` split on *runs* of
the separator; runs produce empty pieces under single-character splitting,
and in the source every piece is immediately whitespace-normalized and
empty pieces are filtered out, so splitting on the single character gives
the same surviving pieces. -/

def splitSep (sep : Char) : List Char → List (List Char)
  | [] => [[]]
  | c :: rest =>
    if c = sep then [] :: splitSep sep rest
    else
      match splitSep sep rest with
      | [] => [[c]]
      | h :: t => (c :: h) :: t

/-! ## Course-token scanner — `COURSE_RE = \b([A-Z]{2,4})\s*(\d{2,3}[A-Z]?)\b`

`matchCourse` decides whether the regex matches at the start of the given
suffix (the leading `\b` is checked by the caller).  The backtracking
behaviour of the pattern resolves deterministically:

* `[A-Z]{2,4}` must take the whole uppercase run at the position (taking
  fewer letters leaves an uppercase letter where `\s*\d` must match), so
  there is a match only when that run has length 2–4;
* `\s*` must take the whole whitespace run (a digit is not whitespace);
* `\d{2,3}` must take the whole digit run, which must have length 2 or 3
  (with 4+ digits both the 3- and 2-digit attempts leave a digit after the
  group, failing `[A-Z]?\b`);
* `[A-Z]?` greedily takes a following uppercase letter, and the final `\b`
  requires the next character (if any) to be a non-word character.

On success it returns the normalized `"SUBJECT NUMBER"` reference
(`f"{m.group(1)} {m.group(2)}"`) and the length of the matched span. -/

def matchCourse (l : List Char) : Option (String × Nat) :=
  let ls := l.takeWhile isUpperC
  if ls.length < 2 || 4 < ls.length then none
  else
    let r1 := l.drop ls.length
    let w := r1.takeWhile isWS
    let r2 := r1.drop w.length
    let ds := r2.takeWhile isDigitC
    if ds.length < 2 || 3 < ds.length then none
    else
      let r3 := r2.drop ds.length
      let base := ls.length + w.length + ds.length
      match r3 with
      | [] => some (⟨ls ++ ' ' :: ds⟩, base)
      | c :: r4 =>
        if isUpperC c then
          match r4 with
          | [] => some (⟨ls ++ ' ' :: (ds ++ [c])⟩, base + 1)
          | c2 :: _ =>
            if isWordC c2 then none
            else some (⟨ls ++ ' ' :: (ds ++ [c])⟩, base + 1)
        else if isWordC c then none
        else some (⟨ls ++ ' ' :: ds⟩, base)

/-- A span as produced by `find_course_spans`: reference, start, end. -/
abbrev Span := String × Nat × Nat

/-- Fueled scanner loop: models `COURSE_RE.finditer`.  `prevW` says whether
the character just before the current position is a word character (this is
all `\b` needs); after a match the scan resumes at the match end, whose
preceding character is a digit or uppercase letter, hence a word
character. -/
def scanAux : Nat → Bool → Nat → List Char → List Span
  | 0, _, _, _ => []
  | _ + 1, _, _, [] => []
  | fuel + 1, prevW, pos, l@(c :: rest) =>
    if prevW then scanAux fuel (isWordC c) (pos + 1) rest
    else
      match matchCourse l with
      | some (ref, len) =>
        (ref, pos, pos + len) :: scanAux fuel true (pos + len) (l.drop len)
      | none => scanAux fuel (isWordC c) (pos + 1) rest

/-- `find_course_spans` from `parse_course_prereqs.py`. -/
def findCourseSpans (l : List Char) : List Span :=
  scanAux (l.length + 1) false 0 l

/-! ## Word-bounded searches

`re.search(r"\bWORD\b", text)` for a literal word whose characters are all
word characters: the word must appear with a non-word character (or the
text edge) on both sides.  The scan tries every position left to right. -/

/-- Match the literal `w` at the head of `l`, returning the remainder. -/
def stripLit : List Char → List Char → Option (List Char)
  | [], l => some l
  | _ :: _, [] => none
  | x :: xs, c :: cs => if c = x then stripLit xs cs else none

/-- Case-insensitive variant of `stripLit` (the pattern is lowercase). -/
def stripLitCI : List Char → List Char → Option (List Char)
  | [], l => some l
  | _ :: _, [] => none
  | x :: xs, c :: cs => if c.toLower = x then stripLitCI xs cs else none

/-- `\b` after a match: the next character, if any, is not a word char. -/
def afterB : List Char → Bool
  | [] => true
  | c :: _ => !isWordC c

/-- `p` occurs at the head of `l`. -/
def startsL (p l : List Char) : Bool := (stripLit p l).isSome

/-- Python `p in l`: `p` occurs as a contiguous substring of `l`. -/
def infixB : List Char → List Char → Bool
  | p, [] => p.isEmpty
  | p, l@(_ :: rest) => startsL p l || infixB p rest

/-- `re.search(r"\b" + w + r"\b", l) is not None` for a literal word `w`
made of word characters, on an already-lowercased text `l`. -/
def hasWordAux (w : List Char) : Bool → List Char → Bool
  | _, [] => false
  | prevW, l@(c :: rest) =>
    (!prevW &&
      (match stripLit w l with
       | some r => afterB r
       | none => false)) ||
    hasWordAux w (isWordC c) rest

def hasWord (w : List Char) (l : List Char) : Bool := hasWordAux w false l

/-! ## "one of" / "any of" phrase search

`re.search(r"\b(one of|any of)\b", clause_clean, re.IGNORECASE)`; the
result used by the source is `match.end()`.  The two alternatives have the
same length and distinct (case-folded) first letters, so the leftmost match
end is well defined. -/

def phraseAt (l : List Char) : Bool :=
  (match stripLitCI "one of".data l with
   | some r => afterB r
   | none => false) ||
  (match stripLitCI "any of".data l with
   | some r => afterB r
   | none => false)

def findPhraseEndAux : Bool → Nat → List Char → Option Nat
  | _, _, [] => none
  | prevW, pos, c :: rest =>
    if !prevW && phraseAt (c :: rest) then some (pos + 6)
    else findPhraseEndAux (isWordC c) (pos + 1) rest

/-- End offset of the leftmost `\b(one of|any of)\b` match, if any. -/
def findPhraseEnd (l : List Char) : Option Nat := findPhraseEndAux false 0 l

/-! ## Connector classification (lines 49–65 of `parse_course_prereqs.py`) -/

inductive Conn where
  | AND | OR | LIST | UNKNOWN
deriving DecidableEq, Repr

/-- Classify the (already lowercased) text strictly between two adjacent
course tokens, exactly as the source does:
`"and/or" in between` → OR; `\band\b` → AND; `\bor\b` → OR;
`"," in between` → LIST; otherwise UNKNOWN. -/
def classifyBetween (b : List Char) : Conn :=
  if infixB "and/or".data b then .OR
  else if hasWord "and".data b then .AND
  else if hasWord "or".data b then .OR
  else if b.contains ',' then .LIST
  else .UNKNOWN

/-- The slice `cc[e1:s2]` of the clause, lowercased. -/
def betweenText (cc : List Char) (e1 s2 : Nat) : List Char :=
  lowerL ((cc.drop e1).take (s2 - e1))

/-- The pairwise connector list built by the loop
`for i in range(len(courses) - 1)`. -/
def connectorsOf (cc : List Char) : List Span → List Conn
  | [] => []
  | (_, _, e1) :: rest =>
    match rest with
    | [] => []
    | (_, s2, _) :: _ =>
      classifyBetween (betweenText cc e1 s2) :: connectorsOf cc rest

/-! ## Requirement trees -/

/-- `RequirementNode`: the dict-with-`"op"`-tag union of the source as a
closed tagged variant. -/
inductive ReqNode where
  | EMPTY : ReqNode
  | COURSE : String → ReqNode
  | AND : List ReqNode → ReqNode
  | OR : List ReqNode → ReqNode
deriving Repr

/-! ## Clause parser — `parse_clause_into_group` -/

/-- The per-segment grouping of the mixed-connector fallback (lines
84–94): a comma segment with course tokens becomes `AND` of its courses if
it has word "and" and not word "or", `OR` if "or" and not "and", and `OR`
otherwise. -/
def segItem (seg : List Char) : Option ReqNode :=
  let sc := findCourseSpans seg
  if sc.isEmpty then none
  else
    let low := lowerL seg
    let items := sc.map fun t => ReqNode.COURSE t.1
    if hasWord "and".data low && !hasWord "or".data low then some (.AND items)
    else if hasWord "or".data low && !hasWord "and".data low then some (.OR items)
    else some (.OR items)

/-- Comma re-segmentation of the mixed case (line 82): split on commas,
normalize, drop empties. -/
def mixedSegs (cc : List Char) : List (List Char) :=
  ((splitSep ',' cc).map normSpace).filter (fun s => !s.isEmpty)

/-- The `subitems` list of the mixed case, after the empty fallback of
lines 96–97. -/
def mixedSubitems (cc : List Char) (courses : List Span) : List ReqNode :=
  let subitems := (mixedSegs cc).filterMap segItem
  if subitems.isEmpty then courses.map fun t => ReqNode.COURSE t.1
  else subitems

def isANDn : ReqNode → Bool
  | .AND _ => true
  | _ => false

def isORn : ReqNode → Bool
  | .OR _ => true
  | _ => false

/-- Lines 80–108: the mixed AND/OR fallback. -/
def mixedPath (cc : List Char) (courses : List Span) : ReqNode :=
  let subitems := mixedSubitems cc courses
  let ac := (subitems.filter isANDn).length
  let oc := (subitems.filter isORn).length
  if ac ≠ 0 ∧ oc = 0 then .AND subitems
  else if oc ≠ 0 ∧ ac = 0 then .OR subitems
  else .AND subitems

/-- Lines 67–78: the connector-driven cases. -/
def connectorsPath (cc : List Char) (courses : List Span) : ReqNode :=
  let conns := connectorsOf cc courses
  let courseItems := courses.map fun t => ReqNode.COURSE t.1
  if Conn.AND ∈ conns ∧ Conn.OR ∉ conns then .AND courseItems
  else if Conn.OR ∈ conns ∧ Conn.AND ∉ conns then .OR courseItems
  else if Conn.AND ∉ conns ∧ Conn.OR ∉ conns then
    if Conn.LIST ∈ conns then .OR courseItems
    else match courseItems with
      | [x] => x
      | xs => .AND xs
  else mixedPath cc courses

/-- `parse_clause_into_group` from `parse_course_prereqs.py`. -/
def parseClause (clause : List Char) : ReqNode :=
  let cc := normSpace clause
  let courses := findCourseSpans cc
  if courses.isEmpty then .EMPTY
  else
    match findPhraseEnd cc with
    | some stIdx =>
      let orL := courses.filter fun t => stIdx ≤ t.2.1
      if orL.isEmpty then connectorsPath cc courses
      else
        let prior := courses.filter fun t => t.2.1 < stIdx
        let orNode := ReqNode.OR (orL.map fun t => ReqNode.COURSE t.1)
        if prior.isEmpty then orNode
        else .AND ((prior.map fun t => ReqNode.COURSE t.1) ++ [orNode])
    | none => connectorsPath cc courses

/-! ## Corequisite-clause detection and the clause router -/

/-- `credit\s+or\s+concurrent\s+(enrollment|registration)\s+in` matched at
the head of an (already lowercased) text.  Each `\s+` is followed by a
non-whitespace literal, so the greedy whitespace run is forced. -/
def coreqPatAt (l : List Char) : Bool :=
  match stripLit "credit".data l with
  | none => false
  | some r1 =>
    match r1 with
    | c :: r1' =>
      if !isWS c then false
      else
        match stripLit "or".data (r1'.dropWhile isWS) with
        | none => false
        | some r2 =>
          match r2 with
          | c2 :: r2' =>
            if !isWS c2 then false
            else
              match stripLit "concurrent".data (r2'.dropWhile isWS) with
              | none => false
              | some r3 =>
                match r3 with
                | c3 :: r3' =>
                  if !isWS c3 then false
                  else
                    let r3'' := r3'.dropWhile isWS
                    let afterWord :=
                      match stripLit "enrollment".data r3'' with
                      | some r4 => some r4
                      | none => stripLit "registration".data r3''
                    match afterWord with
                    | none => false
                    | some r4 =>
                      match r4 with
                      | c4 :: r4' =>
                        if !isWS c4 then false
                        else (stripLit "in".data (r4'.dropWhile isWS)).isSome
                      | [] => false
                | [] => false
          | [] => false
    | [] => false

def searchCoreqPat : List Char → Bool
  | [] => false
  | c :: rest => coreqPatAt (c :: rest) || searchCoreqPat rest

/-- `is_coreq_clause` from `parse_prereq_text` (lines 117–124). -/
def isCoreqClause (c : List Char) : Bool :=
  let low := lowerL c
  infixB "concurrent".data low ||
  infixB "co-requisite".data low ||
  infixB "corequisite".data low ||
  searchCoreqPat low

/-- Clause list of `parse_prereq_text` (line 113): split on semicolons,
normalize, drop empties. -/
def clausesOf (text : List Char) : List (List Char) :=
  ((splitSep ';' text).map normSpace).filter (fun s => !s.isEmpty)

/-- The routing loop of lines 126–135, preserving clause order. -/
def routeAux : List (List Char) → List ReqNode × List ReqNode
  | [] => ([], [])
  | c :: rest =>
    let grp := parseClause c
    let (hs, ks) := routeAux rest
    match grp with
    | .EMPTY => (hs, ks)
    | g => if isCoreqClause c then (hs, g :: ks) else (g :: hs, ks)

/-- `fold` from lines 137–142. -/
def foldGroups : List ReqNode → ReqNode
  | [] => .EMPTY
  | [g] => g
  | gs => .AND gs

structure ParsedPrereq where
  hard : ReqNode
  coreq_ok : ReqNode
deriving Repr

/-- `parse_prereq_text` from `parse_course_prereqs.py`. -/
def parsePrereqText (text : List Char) : ParsedPrereq :=
  let (hs, ks) := routeAux (clausesOf text)
  ⟨foldGroups hs, foldGroups ks⟩

/-! ## `analyze_prereqs.py` — the pre-parse gate -/

/-- `^\s*none\.?\s*$` searched (with its anchors) in an already-stripped
text, case-insensitively: the whole text is optional whitespace, `none`,
an optional period, optional whitespace.  (`$` can also match before a
final newline, but the text has been stripped, so it has none.) -/
def matchNonePat (l : List Char) : Bool :=
  match stripLitCI "none".data (l.dropWhile isWS) with
  | none => false
  | some r =>
    match r with
    | [] => true
    | '.' :: r2 => r2.all isWS
    | _ => r.all isWS

/-- The `[s]?:` part of `prerequisite[s]?:\s*none\b`: deterministic,
since `s` and `:` differ. -/
def p3After : List Char → Option (List Char)
  | 's' :: ':' :: r => some r
  | ':' :: r => some r
  | _ => none

/-- `prerequisite[s]?:\s*none\b` matched at the head of an already
lowercased text.  `\s*` then `none` is deterministic (`n` is not
whitespace). -/
def p3At (l : List Char) : Bool :=
  match stripLit "prerequisite".data l with
  | none => false
  | some r =>
    match p3After r with
    | none => false
    | some r' =>
      match stripLit "none".data (r'.dropWhile isWS) with
      | none => false
      | some r2 => afterB r2

/-- `re.search` of `prerequisite[s]?:\s*none\b` (no leading anchor). -/
def searchP3 : List Char → Bool
  | [] => false
  | c :: rest => p3At (c :: rest) || searchP3 rest

/-- `is_none_text` from `analyze_prereqs.py`: the three `NONE_PATTERNS`
searched (IGNORECASE) in the stripped text. -/
def isNoneText (text : List Char) : Bool :=
  let t := stripL text
  matchNonePat t ||
  infixB "no prerequisites".data (lowerL t) ||
  searchP3 (lowerL t)

/-- `NON_COURSE_KEYWORDS` as substring searches on the lowercased text.
The two regexes with an optional letter (`credits?`, `hours?`) succeed as
searches exactly when their mandatory stem (`credit`, `hour`) occurs, and
`credit hour` is the one multi-word literal. -/
def hasNonCourseKeyword (t : List Char) : Bool :=
  let low := lowerL t
  ["consent", "permission", "approval",
   "standing", "senior", "junior", "sophomore", "freshman",
   "major", "minor", "program", "restricted", "enrollment", "enrolled",
   "gpa", "grade", "minimum", "credit hour", "credit", "hour",
   "registration", "concurrent", "co-requisite", "corequisite",
   "department", "instructor"].any fun k => infixB k.data low

/-- `COURSE_TOKEN.sub("COURSE", t)`: replace every course-token match by
the literal `COURSE`, scanning exactly like `findCourseSpans`. -/
def subCoursesAux : Nat → Bool → List Char → List Char
  | 0, _, _ => []
  | _ + 1, _, [] => []
  | fuel + 1, prevW, l@(c :: rest) =>
    if prevW then c :: subCoursesAux fuel (isWordC c) rest
    else
      match matchCourse l with
      | some (_, len) => "COURSE".data ++ subCoursesAux fuel true (l.drop len)
      | none => c :: subCoursesAux fuel (isWordC c) rest

def subCourses (l : List Char) : List Char := subCoursesAux (l.length + 1) false l

/-- `re.sub(r"[(),.;]", " ", _)`. -/
def punctToSpace (l : List Char) : List Char :=
  l.map fun c => if c = '(' || c = ')' || c = ',' || c = '.' || c = ';' then ' ' else c

/-- The alternatives of
`\b(and|or|and/or|either|both|one of|two of|with|credit in)\b`, in source
order.  (`and/or` can never fire: at any position where it would match,
the earlier alternative `and` already matches with a `/` after it.) -/
def conjAlts : List (List Char) :=
  ["and", "or", "and/or", "either", "both", "one of", "two of", "with",
   "credit in"].map String.data

/-- First alternative matching at the head (case-insensitively) whose end
is at a `\b`; returns its length. -/
def conjAt (l : List Char) : Option Nat :=
  (conjAlts.filter fun a =>
      match stripLitCI a l with
      | some r => afterB r
      | none => false).head?.map List.length

/-- `re.sub` of the conjunction pattern with `" "`, IGNORECASE.  Every
alternative ends in a word character, so after a replacement the scan
continues with `prevW = true`. -/
def subConjAux : Nat → Bool → List Char → List Char
  | 0, _, _ => []
  | _ + 1, _, [] => []
  | fuel + 1, prevW, l@(c :: rest) =>
    if prevW then c :: subConjAux fuel (isWordC c) rest
    else
      match conjAt l with
      | some len => ' ' :: subConjAux fuel true (l.drop len)
      | none => c :: subConjAux fuel (isWordC c) rest

def subConj (l : List Char) : List Char := subConjAux (l.length + 1) false l

/-- `\b(at\s+least)\b` matched at the head (IGNORECASE); returns the
matched length. -/
def atLeastAt (l : List Char) : Option Nat :=
  match stripLitCI "at".data l with
  | none => none
  | some r =>
    match r with
    | c :: _ =>
      if !isWS c then none
      else
        let ws := r.takeWhile isWS
        match stripLitCI "least".data (r.drop ws.length) with
        | some r2 => if afterB r2 then some (2 + ws.length + 5) else none
        | none => none
    | [] => none

/-- `re.sub(r"\b(at\s+least)\b", " ", _, IGNORECASE)`. -/
def subAtLeastAux : Nat → Bool → List Char → List Char
  | 0, _, _ => []
  | _ + 1, _, [] => []
  | fuel + 1, prevW, l@(c :: rest) =>
    if prevW then c :: subAtLeastAux fuel (isWordC c) rest
    else
      match atLeastAt l with
      | some len => ' ' :: subAtLeastAux fuel true (l.drop len)
      | none => c :: subAtLeastAux fuel (isWordC c) rest

def subAtLeast (l : List Char) : List Char := subAtLeastAux (l.length + 1) false l

/-- `re.fullmatch(r"(COURSE\s*)+", s)`: the text is one or more `COURSE`
literals each followed by optional whitespace, and nothing else. -/
def fmCourseAux : Nat → List Char → Bool
  | 0, _ => false
  | fuel + 1, l =>
    match stripLit "COURSE".data l with
    | none => false
    | some r =>
      let r' := r.dropWhile isWS
      if r'.isEmpty then true else fmCourseAux fuel r'

def fmCourse (l : List Char) : Bool := fmCourseAux (l.length + 1) l

/-- `is_course_only` from `analyze_prereqs.py`. -/
def isCourseOnly (text : List Char) : Bool :=
  let t := stripL text
  if hasNonCourseKeyword t then false
  else
    let simplified := normSpace (subAtLeast (subConj (punctToSpace (subCourses t))))
    simplified.isEmpty || fmCourse simplified

/-- The three buckets of `analyze`. -/
inductive Bucket where
  | noneB | courseOnly | remaining
deriving DecidableEq, Repr

/-- The per-record classification of `analyze` (lines 67–87 of
`analyze_prereqs.py`): empty/whitespace-only or `is_none_text` → the
"none" bucket; else `is_course_only` → "course_only"; else "remaining". -/
def analyzeBucket (prereq : List Char) : Bucket :=
  if (stripL prereq).isEmpty then .noneB
  else if isNoneText prereq then .noneB
  else if isCourseOnly prereq then .courseOnly
  else .remaining

/-! ## `build_final_parsed.py` — `detect_flags` -/

/-- Strict lexicographic order on character lists by code point, the
order `sorted` uses on ASCII strings. -/
def strLtB : List Char → List Char → Bool
  | [], [] => false
  | [], _ :: _ => true
  | _ :: _, [] => false
  | a :: as_, b :: bs => if a < b then true else if b < a then false else strLtB as_ bs

/-- Insert into a sorted duplicate-free list, keeping it so. -/
def insertSorted (s : String) : List String → List String
  | [] => [s]
  | t :: ts =>
    if s = t then t :: ts
    else if strLtB s.data t.data then s :: t :: ts
    else t :: insertSorted s ts

/-- `sorted(set(_))` for a list of flag names. -/
def sortDedup (l : List String) : List String := l.foldr insertSorted []

/-- The `mapping` of `detect_flags`, each alternation regex as the list of
its literal alternatives. -/
def flagMapping : List (List String × String) :=
  [ (["consent", "permission", "approval"], "CONSENT"),
    (["standing", "senior", "junior", "sophomore", "freshman"], "STANDING"),
    (["major", "minor", "program", "restricted", "enrollment", "enrolled"],
      "MAJOR_OR_PROGRAM"),
    (["gpa", "grade", "minimum"], "GRADE_OR_GPA"),
    (["concurrent", "co-requisite", "corequisite"], "COREQ_ALLOWED"),
    (["department", "instructor"], "DEPT_OR_INSTRUCTOR") ]

/-- `re.search(pat, text.lower())` for one alternation-of-literals
keyword-group pattern: some alternative occurs in the lowercased text. -/
def fires (alts : List String) (text : List Char) : Bool :=
  alts.any fun k => infixB k.data (lowerL text)

/-- `detect_flags` from `build_final_parsed.py`. -/
def detectFlags (text : List Char) : List String :=
  sortDedup <| flagMapping.filterMap fun grp =>
    if fires grp.1 text then some grp.2 else none

end UIUC


namespace UIUC

/-! ## Auxiliary notions used by the theorems -/

mutual

/-- The course references at the `COURSE` leaves of a tree, in order. -/
def leafRefs : ReqNode → List String
  | .EMPTY => []
  | .COURSE c => [c]
  | .AND items => leafRefsList items
  | .OR items => leafRefsList items

/-- Leaf references of a list of trees. -/
def leafRefsList : List ReqNode → List String
  | [] => []
  | n :: ns => leafRefs n ++ leafRefsList ns

end

end UIUC

namespace UIUC

/-- **C9.** Each of the four inputs `""`, `"None."`, `"No prerequisites."`
and `"Prerequisites: none"` is classified by the pre-parse gate
(`analyze`/`is_none_text`) into the "none" bucket, and parsing each of
them yields `hard = EMPTY`, `coreq_ok = EMPTY` and an empty flag set. -/
theorem claim9_none_type_inputs :
    analyzeBucket "".data = .noneB ∧
      parsePrereqText "".data = ⟨.EMPTY, .EMPTY⟩ ∧ detectFlags "".data = [] ∧
    analyzeBucket "None.".data = .noneB ∧
      parsePrereqText "None.".data = ⟨.EMPTY, .EMPTY⟩ ∧
      detectFlags "None.".data = [] ∧
    analyzeBucket "No prerequisites.".data = .noneB ∧
      parsePrereqText "No prerequisites.".data = ⟨.EMPTY, .EMPTY⟩ ∧
      detectFlags "No prerequisites.".data = [] ∧
    analyzeBucket "Prerequisites: none".data = .noneB ∧
      parsePrereqText "Prerequisites: none".data = ⟨.EMPTY, .EMPTY⟩ ∧
      detectFlags "Prerequisites: none".data = [] :=
  ⟨rfl, rfl, rfl, rfl, rfl, rfl, rfl, rfl, rfl, rfl, rfl, rfl⟩

end UIUC

namespace UIUC

/-! ## C7 — the non-course flag classifier -/

/-- The flag classifier exactly as the claim describes it (a reference
definition following the claim's words, for comparison with `detectFlags`):
the deduplicated, sorted-by-name set of flags whose keyword group has a
match, with the six keyword groups *as listed by the claim* — in
particular the MAJOR_OR_PROGRAM group is
major/minor/program/restricted/enrollment, without the keyword
`enrolled`.  Emitting each flag at most once, in name-sorted position,
realises "deduplicated, sorted-by-name set". -/
def detect_flags_claim (t : List Char) : List String :=
  (if fires ["consent", "permission", "approval"] t then ["CONSENT"] else []) ++
  (if fires ["concurrent", "co-requisite", "corequisite"] t then ["COREQ_ALLOWED"] else []) ++
  (if fires ["department", "instructor"] t then ["DEPT_OR_INSTRUCTOR"] else []) ++
  (if fires ["gpa", "grade", "minimum"] t then ["GRADE_OR_GPA"] else []) ++
  (if fires ["major", "minor", "program", "restricted", "enrollment"] t
    then ["MAJOR_OR_PROGRAM"] else []) ++
  (if fires ["standing", "senior", "junior", "sophomore", "freshman"] t
    then ["STANDING"] else [])

/-- The amended description: identical to `detect_flags_claim` except that
the MAJOR_OR_PROGRAM keyword group additionally contains `enrolled`, as the
source's `mapping` does. -/
def detect_flags_amended (t : List Char) : List String :=
  (if fires ["consent", "permission", "approval"] t then ["CONSENT"] else []) ++
  (if fires ["concurrent", "co-requisite", "corequisite"] t then ["COREQ_ALLOWED"] else []) ++
  (if fires ["department", "instructor"] t then ["DEPT_OR_INSTRUCTOR"] else []) ++
  (if fires ["gpa", "grade", "minimum"] t then ["GRADE_OR_GPA"] else []) ++
  (if fires ["major", "minor", "program", "restricted", "enrollment", "enrolled"] t
    then ["MAJOR_OR_PROGRAM"] else []) ++
  (if fires ["standing", "senior", "junior", "sophomore", "freshman"] t
    then ["STANDING"] else [])

/-- **C7, counterexample.**  On the input `"enrolled"` the source
classifier returns `["MAJOR_OR_PROGRAM"]` — the code's MAJOR_OR_PROGRAM
pattern is `major|minor|program|restricted|enrollment|enrolled` — while
the claim's six keyword groups (which omit `enrolled`) produce no flag at
all, so the classifier is not the function the claim describes. -/
theorem claim7_counterexample :
    detectFlags "enrolled".data ≠ detect_flags_claim "enrolled".data ∧
    detectFlags "enrolled".data = ["MAJOR_OR_PROGRAM"] ∧
    detect_flags_claim "enrolled".data = [] := by
  refine ⟨?_, rfl, rfl⟩
  decide

/-- **C7, amended.**  For every text, `detect_flags` lowercases it and
returns exactly the deduplicated, sorted-by-name set of flags whose
keyword group matches, where the groups are as the claim lists them
*plus* the keyword `enrolled` in the MAJOR_OR_PROGRAM group. -/
theorem claim7_detect_flags_amended (t : List Char) :
    detectFlags t = detect_flags_amended t := by
  unfold detectFlags detect_flags_amended flagMapping
  cases h1 : fires ["consent", "permission", "approval"] t <;>
    cases h2 : fires ["standing", "senior", "junior", "sophomore", "freshman"] t <;>
    cases h3 : fires ["major", "minor", "program", "restricted", "enrollment", "enrolled"] t <;>
    cases h4 : fires ["gpa", "grade", "minimum"] t <;>
    cases h5 : fires ["concurrent", "co-requisite", "corequisite"] t <;>
    cases h6 : fires ["department", "instructor"] t <;>
    simp [h1, h2, h3, h4, h5, h6, sortDedup, insertSorted, strLtB]

end UIUC

namespace UIUC

/-! ## C1 — the "one of" / "any of" special case -/

/-- **C1.**  If the (normalized) clause contains the phrase `one of` or
`any of` (case-insensitively, word-bounded, leftmost match ending at
`stIdx`) and at least one course token starts at or after `stIdx`, then
the parser groups all course tokens starting at or after `stIdx` into a
single `OR` in textual order, keeps every earlier course token as an
independent `AND` sibling before that `OR` group, and returns the single
item unwrapped (the `OR` group itself) when there is no earlier token. -/
theorem claim1_one_of_grouping (clause : List Char) (stIdx : Nat)
    (hph : findPhraseEnd (normSpace clause) = some stIdx)
    (horL : (findCourseSpans (normSpace clause)).filter
      (fun t => stIdx ≤ t.2.1) ≠ []) :
    parseClause clause =
      (let courses := findCourseSpans (normSpace clause)
       let orL := courses.filter fun t => stIdx ≤ t.2.1
       let prior := courses.filter fun t => t.2.1 < stIdx
       let orNode := ReqNode.OR (orL.map fun t => ReqNode.COURSE t.1)
       if prior.isEmpty then orNode
       else .AND ((prior.map fun t => ReqNode.COURSE t.1) ++ [orNode])) := by
  have hc : (findCourseSpans (normSpace clause)).isEmpty = false := by
    rcases h : findCourseSpans (normSpace clause) with _ | ⟨a, as_⟩
    · exact absurd (by simp [h]) horL
    · simp [h]
  have horL' : ((findCourseSpans (normSpace clause)).filter
      (fun t => stIdx ≤ t.2.1)).isEmpty = false := by
    rcases h : (findCourseSpans (normSpace clause)).filter (fun t => stIdx ≤ t.2.1) with
      _ | ⟨a, as_⟩
    · exact absurd h horL
    · simp [h]
  simp only [parseClause, hc, hph, horL', Bool.false_eq_true, if_false]

/-- **C1, witness.**  The claim's example: `"MATH 231 and one of CS 225,
CS 233, or CS 241"` parses to
`AND[COURSE "MATH 231", OR[COURSE "CS 225", COURSE "CS 233", COURSE "CS 241"]]`. -/
theorem claim1_one_of_grouping_witness :
    parseClause "MATH 231 and one of CS 225, CS 233, or CS 241".data =
      .AND [.COURSE "MATH 231",
            .OR [.COURSE "CS 225", .COURSE "CS 233", .COURSE "CS 241"]] :=
  (claim1_one_of_grouping
    "MATH 231 and one of CS 225, CS 233, or CS 241".data 19 rfl
    (by decide)).trans rfl

end UIUC

namespace UIUC

/-- A clause is "not handled by the one-of/any-of grouping" when either
the phrase does not occur, or no course token starts after its end. -/
def noOneOfCase (clause : List Char) : Prop :=
  findPhraseEnd (normSpace clause) = none ∨
  ∃ stIdx, findPhraseEnd (normSpace clause) = some stIdx ∧
    (findCourseSpans (normSpace clause)).filter (fun t => stIdx ≤ t.2.1) = []

/-- With course tokens present but no applicable one-of phrase,
`parse_clause_into_group` runs its connector-driven logic. -/
theorem parseClause_eq_connectorsPath (clause : List Char)
    (hc : findCourseSpans (normSpace clause) ≠ [])
    (hph : noOneOfCase clause) :
    parseClause clause =
      connectorsPath (normSpace clause) (findCourseSpans (normSpace clause)) := by
  have hc' : (findCourseSpans (normSpace clause)).isEmpty = false := by
    rcases h : findCourseSpans (normSpace clause) with _ | ⟨a, as_⟩
    · exact absurd h hc
    · simp [h]
  rcases hph with h | ⟨stIdx, h1, h2⟩
  · simp only [parseClause, hc', Bool.false_eq_true, if_false, h]
  · simp only [parseClause, hc', Bool.false_eq_true, if_false, h1, h2,
      List.isEmpty_nil, if_true]

/-! ## C4 — the pure-connector cases -/

/-- **C4.**  For a clause with course tokens and no applicable one-of
phrase: if the adjacent-token connectors include `AND` but not `OR` the
result is `AND` over all course leaves in order; if `OR` but not `AND`,
`OR` over them; if neither but some connector is `LIST`, `OR` over them;
and otherwise (a single course, or only `UNKNOWN` separators) `AND` over
them, collapsed to the single leaf when there is only one. -/
theorem claim4_connector_cases (clause : List Char)
    (hc : findCourseSpans (normSpace clause) ≠ [])
    (hph : noOneOfCase clause) :
    (let cc := normSpace clause
     let courses := findCourseSpans cc
     let conns := connectorsOf cc courses
     let items := courses.map fun t => ReqNode.COURSE t.1
     (Conn.AND ∈ conns → Conn.OR ∉ conns → parseClause clause = .AND items) ∧
     (Conn.OR ∈ conns → Conn.AND ∉ conns → parseClause clause = .OR items) ∧
     (Conn.AND ∉ conns → Conn.OR ∉ conns → Conn.LIST ∈ conns →
       parseClause clause = .OR items) ∧
     (Conn.AND ∉ conns → Conn.OR ∉ conns → Conn.LIST ∉ conns →
       parseClause clause =
         match items with
         | [x] => x
         | xs => .AND xs)) := by
  have hmain := parseClause_eq_connectorsPath clause hc hph
  refine ⟨?_, ?_, ?_, ?_⟩ <;> intro h1 h2
  · rw [hmain, connectorsPath, if_pos ⟨h1, h2⟩]
  · rw [hmain, connectorsPath, if_neg (fun hx => h2 hx.1), if_pos ⟨h1, h2⟩]
  · intro h3
    rw [hmain, connectorsPath, if_neg (fun hx => h1 hx.1),
      if_neg (fun hx => h2 hx.1), if_pos ⟨h1, h2⟩, if_pos h3]
  · intro h3
    rw [hmain, connectorsPath, if_neg (fun hx => h1 hx.1),
      if_neg (fun hx => h2 hx.1), if_pos ⟨h1, h2⟩, if_neg h3]

/-- **C4, witness.**  The claim's example: the comma-only clause
`"CS 225, CS 233, CS 241"` (connectors `[LIST, LIST]`) parses to `OR`
over the three courses. -/
theorem claim4_connector_cases_witness :
    parseClause "CS 225, CS 233, CS 241".data =
      .OR [.COURSE "CS 225", .COURSE "CS 233", .COURSE "CS 241"] :=
  ((claim4_connector_cases "CS 225, CS 233, CS 241".data
      (by decide) (Or.inl rfl)).2.2.1
    (by decide) (by decide) (by decide)).trans rfl

end UIUC

namespace UIUC

/-- Every group produced by `segItem` is an `AND` or an `OR` node. -/
theorem segItem_shape {seg : List Char} {n : ReqNode} (h : segItem seg = some n) :
    isANDn n = true ∨ isORn n = true := by
  simp only [segItem] at h
  split_ifs at h
  · exact Or.inl (by cases h; rfl)
  · exact Or.inr (by cases h; rfl)
  · exact Or.inr (by cases h; rfl)

/-- `isANDn` and `isORn` are mutually exclusive. -/
theorem isANDn_not_isORn {n : ReqNode} (h : isANDn n = true) : isORn n = false := by
  cases n <;> simp_all [isANDn, isORn]

theorem isORn_not_isANDn {n : ReqNode} (h : isORn n = true) : isANDn n = false := by
  cases n <;> simp_all [isANDn, isORn]

/-! ## C2 — the mixed AND/OR fallback -/

/-- **C2.**  For a clause with course tokens, no applicable one-of phrase,
and both `AND` and `OR` among its adjacent-token connectors, the parser
re-segments the clause by commas (`mixedSegs`), groups each segment that
contains course tokens by `segItem` (AND if the segment has word "and"
and not "or", OR if "or" and not "and", OR when ambiguous), and combines
the segment groups into one `AND` node when all groups are `AND`, one
`OR` node when all are `OR`, and an outer `AND` over all the groups when
the kinds are mixed.  (`hsub` records that some segment contains a course
token, which the mixed connectors guarantee in practice.) -/
theorem claim2_mixed_resegmentation (clause : List Char)
    (hc : findCourseSpans (normSpace clause) ≠ [])
    (hph : noOneOfCase clause)
    (hA : Conn.AND ∈ connectorsOf (normSpace clause)
      (findCourseSpans (normSpace clause)))
    (hO : Conn.OR ∈ connectorsOf (normSpace clause)
      (findCourseSpans (normSpace clause)))
    (hsub : (mixedSegs (normSpace clause)).filterMap segItem ≠ []) :
    parseClause clause =
      (let S := (mixedSegs (normSpace clause)).filterMap segItem
       if S.all isANDn then .AND S
       else if S.all isORn then .OR S
       else .AND S) := by
  have hmain := parseClause_eq_connectorsPath clause hc hph
  rw [hmain, connectorsPath]
  rw [if_neg (fun hx => hx.2 hO), if_neg (fun hx => hx.2 hA),
    if_neg (fun hx => hx.1 hA)]
  set S := (mixedSegs (normSpace clause)).filterMap segItem with hS
  have hshape : ∀ n ∈ S, isANDn n = true ∨ isORn n = true := by
    intro n hn
    rcases List.mem_filterMap.mp (hS ▸ hn) with ⟨seg, _, hseg⟩
    exact segItem_shape hseg
  have hSE : S.isEmpty = false := by
    rcases h : S with _ | ⟨a, as_⟩
    · exact absurd h hsub
    · rfl
  rw [mixedPath, mixedSubitems]
  rw [← hS, hSE]
  simp only [Bool.false_eq_true, if_false]
  by_cases hall : S.all isANDn = true
  · have hac : (S.filter isANDn).length ≠ 0 := by
      have : S.filter isANDn = S := List.filter_eq_self.mpr (List.all_eq_true.mp hall)
      rw [this]
      simpa [← List.isEmpty_iff_length_eq_zero] using hSE
    have hoc : (S.filter isORn).length = 0 := by
      have : S.filter isORn = [] := by
        rw [List.filter_eq_nil_iff]
        intro a ha
        simp [isANDn_not_isORn (List.all_eq_true.mp hall a ha)]
      simp [this]
    rw [if_pos ⟨hac, hoc⟩, hall, if_pos rfl]
  · by_cases hallO : S.all isORn = true
    · have hoc : (S.filter isORn).length ≠ 0 := by
        have : S.filter isORn = S := List.filter_eq_self.mpr (List.all_eq_true.mp hallO)
        rw [this]
        simpa [← List.isEmpty_iff_length_eq_zero] using hSE
      have hac : (S.filter isANDn).length = 0 := by
        have : S.filter isANDn = [] := by
          rw [List.filter_eq_nil_iff]
          intro a ha
          simp [isORn_not_isANDn (List.all_eq_true.mp hallO a ha)]
        simp [this]
      rw [if_neg (fun hx => hx.1 hac), if_pos ⟨hoc, hac⟩]
      simp [hall, hallO]
    · have hac : (S.filter isANDn).length ≠ 0 := by
        rcases List.all_eq_false.mp (Bool.eq_false_iff.mpr hallO) with ⟨a, ha, hna⟩
        have haA : isANDn a = true := by
          rcases hshape a ha with h | h
          · exact h
          · exact absurd h (by simp_all)
        have : a ∈ S.filter isANDn := List.mem_filter.mpr ⟨ha, haA⟩
        intro hlen
        rw [List.length_eq_zero] at hlen
        simp [hlen] at this
      have hoc : (S.filter isORn).length ≠ 0 := by
        rcases List.all_eq_false.mp (Bool.eq_false_iff.mpr hall) with ⟨a, ha, hna⟩
        have haO : isORn a = true := by
          rcases hshape a ha with h | h
          · exact absurd h (by simp_all)
          · exact h
        have : a ∈ S.filter isORn := List.mem_filter.mpr ⟨ha, haO⟩
        intro hlen
        rw [List.length_eq_zero] at hlen
        simp [hlen] at this
      rw [if_neg (fun hx => hoc hx.2), if_neg (fun hx => hac hx.2)]
      simp only [hall, hallO, Bool.false_eq_true, if_false]

/-- **C2, witness.**  `"CS 125 and CS 173, CS 225 or CS 233"` has
connectors `[AND, LIST, OR]`; its comma segments group to
`AND[CS 125, CS 173]` and `OR[CS 225, CS 233]`, whose kinds are mixed, so
the clause parses to the outer `AND` over the two groups. -/
theorem claim2_mixed_resegmentation_witness :
    parseClause "CS 125 and CS 173, CS 225 or CS 233".data =
      .AND [.AND [.COURSE "CS 125", .COURSE "CS 173"],
            .OR [.COURSE "CS 225", .COURSE "CS 233"]] :=
  (claim2_mixed_resegmentation "CS 125 and CS 173, CS 225 or CS 233".data
    (by decide) (Or.inl rfl) (by decide) (by decide)
    (fun h => List.noConfusion h)).trans rfl

end UIUC

namespace UIUC

/-! ## C3 — connector classification is local and as specified -/

/-- The connector classification exactly as the claim words it (a
reference definition for comparison with `classifyBetween`): `OR` if the
text contains the literal `and/or` (checked first); `AND` if it contains
the word `and` and not `and/or`; `OR` if it contains the word `or`;
`LIST` if it contains a comma but no conjunction word; `UNKNOWN`
otherwise. -/
def connector_spec (b : List Char) : Conn :=
  if infixB "and/or".data b then .OR
  else if hasWord "and".data b && !infixB "and/or".data b then .AND
  else if hasWord "or".data b then .OR
  else if b.contains ',' && !hasWord "and".data b && !hasWord "or".data b then .LIST
  else .UNKNOWN

/-- The connector list has one entry per adjacent pair. -/
theorem connectorsOf_length (cc : List Char) :
    ∀ spans : List Span, (connectorsOf cc spans).length = spans.length - 1 := by
  intro spans
  induction spans with
  | nil => rfl
  | cons a rest ih =>
    cases rest with
    | nil => rfl
    | cons b rest' =>
      simp only [connectorsOf, List.length_cons] at ih ⊢
      omega

/-- The `i`-th connector is the classification of the text strictly
between the `i`-th and `(i+1)`-th spans — it depends on nothing else. -/
theorem connectorsOf_get (cc : List Char) :
    ∀ (spans : List Span) (i : Nat) (t1 t2 : Span),
      spans[i]? = some t1 → spans[i + 1]? = some t2 →
      (connectorsOf cc spans)[i]? =
        some (classifyBetween (betweenText cc t1.2.2 t2.2.1)) := by
  intro spans
  induction spans with
  | nil => intro i t1 t2 h1 _; simp at h1
  | cons a rest ih =>
    intro i t1 t2 h1 h2
    cases rest with
    | nil =>
      cases i <;> simp at h2
    | cons b rest' =>
      cases i with
      | zero =>
        obtain ⟨ra, sa, ea⟩ := a
        obtain ⟨rb, sb, eb⟩ := b
        simp only [List.getElem?_cons_zero, Option.some.injEq] at h1
        simp only [List.getElem?_cons_succ, List.getElem?_cons_zero,
          Option.some.injEq] at h2
        subst h1; subst h2
        simp only [connectorsOf, List.getElem?_cons_zero]
      | succ j =>
        rw [List.getElem?_cons_succ] at h1 h2
        have hrec := ih j t1 t2 h1 h2
        obtain ⟨ra, sa, ea⟩ := a
        obtain ⟨rb, sb, eb⟩ := b
        simpa only [connectorsOf, List.getElem?_cons_succ] using hrec

/-- **C3.**  (i) Every pairwise between-text classifies to exactly the
connector the claim describes (`classifyBetween = connector_spec`);
(ii) the `i`-th connector in the parser's connector list is computed from
the between-text of spans `i` and `i+1` alone (locality), and (iii) there
is exactly one connector per adjacent pair. -/
theorem claim3_connector_classification :
    (∀ b : List Char, classifyBetween b = connector_spec b) ∧
    (∀ (cc : List Char) (spans : List Span) (i : Nat) (t1 t2 : Span),
      spans[i]? = some t1 → spans[i + 1]? = some t2 →
      (connectorsOf cc spans)[i]? =
        some (classifyBetween (betweenText cc t1.2.2 t2.2.1))) ∧
    (∀ (cc : List Char) (spans : List Span),
      (connectorsOf cc spans).length = spans.length - 1) := by
  refine ⟨?_, connectorsOf_get, fun cc => connectorsOf_length cc⟩
  intro b
  by_cases h1 : infixB "and/or".data b = true <;>
    by_cases h2 : hasWord "and".data b = true <;>
      by_cases h3 : hasWord "or".data b = true <;>
        by_cases h4 : b.contains ',' = true <;>
          simp [classifyBetween, connector_spec, h1, h2, h3, h4]

/-- **C3, witness.**  In `"CS 225, CS 233, CS 241"` the first connector is
computed from the text between the first two spans and is `LIST`. -/
theorem claim3_connector_classification_witness :
    (connectorsOf (normSpace "CS 225, CS 233, CS 241".data)
      (findCourseSpans (normSpace "CS 225, CS 233, CS 241".data)))[0]? =
      some Conn.LIST :=
  (claim3_connector_classification.2.1
    (normSpace "CS 225, CS 233, CS 241".data)
    (findCourseSpans (normSpace "CS 225, CS 233, CS 241".data))
    0 ("CS 225", 0, 6) ("CS 233", 8, 14) rfl rfl).trans rfl

end UIUC

namespace UIUC

def isEMPTYn : ReqNode → Bool
  | .EMPTY => true
  | _ => false

/-- The routing loop keeps, in clause order, the non-`EMPTY` parses of the
non-corequisite clauses in its first component and those of the
corequisite clauses in its second. -/
theorem routeAux_eq (cls : List (List Char)) :
    routeAux cls =
      ((cls.filter fun c =>
          !isEMPTYn (parseClause c) && !isCoreqClause c).map parseClause,
       (cls.filter fun c =>
          !isEMPTYn (parseClause c) && isCoreqClause c).map parseClause) := by
  induction cls with
  | nil => rfl
  | cons c rest ih =>
    simp only [routeAux, ih]
    cases hg : parseClause c <;> by_cases hco : isCoreqClause c = true <;>
      simp [List.filter_cons, hg, hco, isEMPTYn]

/-- **C5.**  Every semicolon clause whose parsed tree is non-`EMPTY` is
routed into the `coreq_ok` tree exactly when `is_coreq_clause` holds of it
(its lowercase form contains "concurrent", "co-requisite" or
"corequisite", or matches `credit\s+or\s+concurrent\s+(enrollment|registration)\s+in`),
and into the `hard` tree otherwise; and the claim's example
`"credit or concurrent registration in MATH 231"` parses to
`hard = EMPTY`, `coreq_ok = COURSE "MATH 231"`. -/
theorem claim5_coreq_routing :
    (∀ text : List Char,
      (parsePrereqText text).hard =
        foldGroups (((clausesOf text).filter fun c =>
          !isEMPTYn (parseClause c) && !isCoreqClause c).map parseClause) ∧
      (parsePrereqText text).coreq_ok =
        foldGroups (((clausesOf text).filter fun c =>
          !isEMPTYn (parseClause c) && isCoreqClause c).map parseClause)) ∧
    parsePrereqText "credit or concurrent registration in MATH 231".data =
      ⟨.EMPTY, .COURSE "MATH 231"⟩ := by
  refine ⟨fun text => ⟨?_, ?_⟩, rfl⟩ <;>
    simp only [parsePrereqText, routeAux_eq]

end UIUC

namespace UIUC

/-! ## C8 — well-formedness of output trees -/

/-- Well-formed trees: every `AND`/`OR` node carries a nonempty items
sequence. -/
inductive NodeOK : ReqNode → Prop where
  | empty : NodeOK .EMPTY
  | course (c : String) : NodeOK (.COURSE c)
  | and_ (items : List ReqNode) : items ≠ [] → (∀ n ∈ items, NodeOK n) →
      NodeOK (.AND items)
  | or_ (items : List ReqNode) : items ≠ [] → (∀ n ∈ items, NodeOK n) →
      NodeOK (.OR items)

theorem courseItems_ok {α : Type} (f : α → String) (xs : List α) :
    ∀ n ∈ xs.map fun t => ReqNode.COURSE (f t), NodeOK n := by
  intro n hn
  rcases List.mem_map.mp hn with ⟨t, _, rfl⟩
  exact NodeOK.course _

theorem map_course_ne_nil {α : Type} (f : α → String) {xs : List α}
    (h : xs ≠ []) : xs.map (fun t => ReqNode.COURSE (f t)) ≠ [] := by
  simpa [List.map_eq_nil_iff] using h

/-- Every group the per-segment grouping produces is well formed. -/
theorem segItem_ok {seg : List Char} {n : ReqNode} (h : segItem seg = some n) :
    NodeOK n := by
  simp only [segItem] at h
  split_ifs at h with h0 h1 h2
  all_goals
    cases h
    first
      | exact NodeOK.and_ _
          (map_course_ne_nil _ (by simpa [List.isEmpty_iff] using h0))
          (courseItems_ok _ _)
      | exact NodeOK.or_ _
          (map_course_ne_nil _ (by simpa [List.isEmpty_iff] using h0))
          (courseItems_ok _ _)

theorem mixedSubitems_ne_nil (cc : List Char) {courses : List Span}
    (hc : courses ≠ []) : mixedSubitems cc courses ≠ [] := by
  simp only [mixedSubitems]
  split
  · exact map_course_ne_nil _ hc
  · next h => simpa [List.isEmpty_iff] using h

theorem mixedSubitems_ok (cc : List Char) (courses : List Span) :
    ∀ n ∈ mixedSubitems cc courses, NodeOK n := by
  simp only [mixedSubitems]
  split
  · exact courseItems_ok _ _
  · intro n hn
    rcases List.mem_filterMap.mp hn with ⟨seg, _, hseg⟩
    exact segItem_ok hseg

theorem mixedPath_ok (cc : List Char) {courses : List Span}
    (hc : courses ≠ []) : NodeOK (mixedPath cc courses) := by
  simp only [mixedPath]
  split_ifs
  · exact NodeOK.and_ _ (mixedSubitems_ne_nil cc hc) (mixedSubitems_ok cc courses)
  · exact NodeOK.or_ _ (mixedSubitems_ne_nil cc hc) (mixedSubitems_ok cc courses)
  · exact NodeOK.and_ _ (mixedSubitems_ne_nil cc hc) (mixedSubitems_ok cc courses)

theorem connectorsPath_ok (cc : List Char) {courses : List Span}
    (hc : courses ≠ []) : NodeOK (connectorsPath cc courses) := by
  simp only [connectorsPath]
  split_ifs
  · exact NodeOK.and_ _ (map_course_ne_nil _ hc) (courseItems_ok _ _)
  · exact NodeOK.or_ _ (map_course_ne_nil _ hc) (courseItems_ok _ _)
  · exact NodeOK.or_ _ (map_course_ne_nil _ hc) (courseItems_ok _ _)
  · split
    · next x hx =>
      have hmem : x ∈ courses.map fun t => ReqNode.COURSE t.1 := by
        rw [hx]
        exact List.mem_singleton_self x
      rcases List.mem_map.mp hmem with ⟨t, _, rfl⟩
      exact NodeOK.course _
    · next xs hxs =>
      exact NodeOK.and_ _ (map_course_ne_nil _ hc) (courseItems_ok _ _)
  · exact mixedPath_ok cc hc

end UIUC

namespace UIUC

/-- Every tree `parse_clause_into_group` returns is well formed. -/
theorem parseClause_ok (clause : List Char) : NodeOK (parseClause clause) := by
  simp only [parseClause]
  split
  · exact NodeOK.empty
  · next hne =>
    have hc : findCourseSpans (normSpace clause) ≠ [] := by
      simpa [List.isEmpty_iff] using hne
    split
    · next stIdx heq =>
      split
      · exact connectorsPath_ok _ hc
      · next horl =>
        have horl' : (findCourseSpans (normSpace clause)).filter
            (fun t => stIdx ≤ t.2.1) ≠ [] := by
          simpa [List.isEmpty_iff] using horl
        split
        · exact NodeOK.or_ _ (map_course_ne_nil _ horl') (courseItems_ok _ _)
        · apply NodeOK.and_
          · simp
          · intro n hn
            rcases List.mem_append.mp hn with h | h
            · rcases List.mem_map.mp h with ⟨t, _, rfl⟩
              exact NodeOK.course _
            · rw [List.mem_singleton.mp h]
              exact NodeOK.or_ _ (map_course_ne_nil _ horl') (courseItems_ok _ _)
    · exact connectorsPath_ok _ hc

theorem foldGroups_ok {gs : List ReqNode} (h : ∀ g ∈ gs, NodeOK g) :
    NodeOK (foldGroups gs) := by
  match gs with
  | [] => exact NodeOK.empty
  | [g] => exact h g (List.mem_singleton_self g)
  | g1 :: g2 :: t => exact NodeOK.and_ _ (List.cons_ne_nil _ _) h

/-- **C8, counterexample.**  The output `hard` tree for the input
`"one of MATH 231"` is an `OR` node with exactly one item, so a length-1
`OR` does appear in parser output: the singleton-collapsing convention is
not enforced on the one-of path (which collapses only the outer `AND`,
not the `OR` group it builds). -/
theorem claim8_counterexample :
    (parsePrereqText "one of MATH 231".data).hard =
      .OR [.COURSE "MATH 231"] ∧
    ([ReqNode.COURSE "MATH 231"] : List ReqNode).length = 1 :=
  ⟨rfl, rfl⟩

/-- **C8, amended.**  In every tree the parser outputs, each `AND` and
each `OR` node carries an items sequence of length ≥ 1 — but single-item
`AND`/`OR` nodes are not always collapsed (see the counterexample), so
only the nonemptiness half of the claimed convention is an invariant. -/
theorem claim8_nonempty_items (text : List Char) :
    NodeOK (parsePrereqText text).hard ∧ NodeOK (parsePrereqText text).coreq_ok := by
  simp only [parsePrereqText, routeAux_eq]
  constructor <;> apply foldGroups_ok <;> intro g hg <;>
    rcases List.mem_map.mp hg with ⟨c, _, rfl⟩ <;> exact parseClause_ok c

end UIUC

namespace UIUC

/-! ## Lemmas about lowercasing, stripping and substring search -/

theorem charEq_iff_toNat (d e : Char) : d = e ↔ d.toNat = e.toNat :=
  ⟨fun h => h ▸ rfl, fun h => Char.ext (UInt32.ext h)⟩

theorem isWS_toNat (d : Char) :
    isWS d = (decide (d.toNat = 32) || decide (d.toNat = 9) ||
      decide (d.toNat = 10) || decide (d.toNat = 13) ||
      decide (d.toNat = 11) || decide (d.toNat = 12)) := by
  simp only [isWS, charEq_iff_toNat]
  rfl

/-- ASCII lowercasing does not change whitespace-ness. -/
theorem isWS_toLower (c : Char) : isWS c.toLower = isWS c := by
  simp only [Char.toLower]
  split
  · next h =>
    have ht : (Char.ofNat (c.toNat + 32)).toNat = c.toNat + 32 := by
      rw [Char.ofNat, dif_pos (Or.inl (by omega))]
      rfl
    have hA : isWS c = false := by
      rw [isWS_toNat]
      simp only [Bool.or_eq_false_iff, decide_eq_false_iff_not]
      omega
    have hB : isWS (Char.ofNat (c.toNat + 32)) = false := by
      rw [isWS_toNat, ht]
      simp only [Bool.or_eq_false_iff, decide_eq_false_iff_not]
      omega
    rw [hA, hB]
  · rfl

theorem lowerL_dropWhile (m : List Char) :
    (lowerL m).dropWhile isWS = lowerL (m.dropWhile isWS) := by
  have hp : (isWS ∘ Char.toLower) = isWS := by
    funext c
    simp [Function.comp, isWS_toLower]
  simp only [lowerL, List.dropWhile_map, hp]

theorem lowerL_reverse (m : List Char) : (lowerL m).reverse = lowerL m.reverse := by
  simp [lowerL, List.map_reverse]

/-- Stripping and lowercasing commute. -/
theorem stripL_lowerL (l : List Char) : stripL (lowerL l) = lowerL (stripL l) := by
  simp only [stripL, lowerL_dropWhile, lowerL_reverse]

theorem stripLit_self_append (p r : List Char) : stripLit p (p ++ r) = some r := by
  induction p with
  | nil => rfl
  | cons c t ih => simp [stripLit, ih]

theorem startsL_iff (p l : List Char) : startsL p l = true ↔ p <+: l := by
  constructor
  · intro h
    induction p generalizing l with
    | nil => exact List.nil_prefix
    | cons c t ih =>
      cases l with
      | nil => simp [startsL, stripLit] at h
      | cons d ls =>
        simp only [startsL, stripLit] at h
        by_cases hd : d = c
        · subst hd
          simp only [if_pos rfl] at h
          exact (List.prefix_cons_inj d).mpr (ih ls h)
        · simp [hd] at h
  · rintro ⟨r, rfl⟩
    simp [startsL, stripLit_self_append]

theorem infixB_iff (p l : List Char) : infixB p l = true ↔ p <:+: l := by
  induction l with
  | nil =>
    simp only [infixB, List.isEmpty_iff, List.infix_nil]
  | cons c r ih =>
    simp only [infixB, Bool.or_eq_true, startsL_iff, ih, List.infix_cons_iff]

/-- An occurrence whose first character survives `dropWhile` survives it. -/
theorem infix_dropWhile_of_head (p : Char → Bool) {pat l : List Char}
    (h : pat <:+: l) (hhead : ∀ c, pat.head? = some c → p c = false) :
    pat <:+: l.dropWhile p := by
  obtain ⟨u, v, rfl⟩ := h
  rw [List.append_assoc, List.dropWhile_append]
  split
  · cases pat with
    | nil => exact List.nil_infix
    | cons c t =>
      rw [List.cons_append, List.dropWhile_cons, hhead c rfl]
      exact ⟨[], v, by simp⟩
  · exact ⟨_, v, by rw [List.append_assoc]⟩

/-- An occurrence of a pattern that neither starts nor ends in whitespace
survives `strip`. -/
theorem infix_stripL {pat l : List Char} (h : pat <:+: l)
    (h1 : ∀ c, pat.head? = some c → isWS c = false)
    (h2 : ∀ c, pat.getLast? = some c → isWS c = false) :
    pat <:+: stripL l := by
  have s1 : pat <:+: l.dropWhile isWS := infix_dropWhile_of_head isWS h h1
  have s2 : pat.reverse <:+: (l.dropWhile isWS).reverse :=
    List.reverse_infix.mpr s1
  have s3 : pat.reverse <:+: (l.dropWhile isWS).reverse.dropWhile isWS :=
    infix_dropWhile_of_head isWS s2 (by simpa using h2)
  have s4 := List.reverse_infix.mpr s3
  simpa [stripL] using s4

end UIUC

namespace UIUC

/-! ## The `prerequisite[s]?:\s*none\b` occurrence predicate -/

/-- A match of `prerequisite[s]?:\s*none` (the part of the third
`NONE_PATTERNS` regex before its final `\b`). -/
def P3core (m : List Char) : Prop :=
  ∃ s w, m = "prerequisite".data ++ s ++ ':' :: (w ++ "none".data) ∧
    (s = [] ∨ s = ['s']) ∧ (∀ c ∈ w, isWS c = true)

/-- `prerequisite[s]?:\s*none\b` occurs somewhere in `l`: some position
carries a core match whose following character, if any, is not a word
character. -/
def P3occurs (l : List Char) : Prop :=
  ∃ u m v, l = u ++ m ++ v ∧ P3core m ∧
    (v = [] ∨ ∃ c t, v = c :: t ∧ isWordC c = false)

theorem dropWhile_all_append {p : Char → Bool} {a : List Char}
    (ha : ∀ c ∈ a, p c = true) (b : List Char) :
    (a ++ b).dropWhile p = b.dropWhile p := by
  induction a with
  | nil => rfl
  | cons c t ih =>
    rw [List.cons_append, List.dropWhile_cons, ha c (List.mem_cons_self c t)]
    exact ih fun d hd => ha d (List.mem_cons_of_mem c hd)

theorem p3After_colon (Y : List Char) : p3After (':' :: Y) = some Y := rfl

theorem p3After_s (Y : List Char) : p3After ('s' :: ':' :: Y) = some Y := rfl

/-- The scanner `p3At` accepts at a core match with a valid boundary. -/
theorem p3At_of_core {m v : List Char} (hm : P3core m)
    (hv : v = [] ∨ ∃ c t, v = c :: t ∧ isWordC c = false) :
    p3At (m ++ v) = true := by
  obtain ⟨s, w, rfl, hs, hw⟩ := hm
  have hb : afterB v = true := by
    rcases hv with rfl | ⟨c, t, rfl, hc⟩
    · rfl
    · simp [afterB, hc]
  have hdw : (w ++ ("none".data ++ v)).dropWhile isWS = "none".data ++ v := by
    rw [dropWhile_all_append hw]
    show List.dropWhile isWS ('n' :: 'o' :: 'n' :: 'e' :: v) =
      'n' :: 'o' :: 'n' :: 'e' :: v
    rw [List.dropWhile_cons]
    simp [isWS]
  rcases hs with rfl | rfl
  · have harr : "prerequisite".data ++ [] ++ ':' :: (w ++ "none".data) ++ v =
        "prerequisite".data ++ (':' :: (w ++ ("none".data ++ v))) := by
      simp [List.append_assoc]
    rw [harr]
    simp only [p3At, stripLit_self_append, p3After_colon, hdw]
    exact hb
  · have harr : "prerequisite".data ++ ['s'] ++ ':' :: (w ++ "none".data) ++ v =
        "prerequisite".data ++ ('s' :: ':' :: (w ++ ("none".data ++ v))) := by
      simp [List.append_assoc]
    rw [harr]
    simp only [p3At, stripLit_self_append, p3After_s, hdw]
    exact hb

theorem searchP3_of_P3occurs {l : List Char} (h : P3occurs l) :
    searchP3 l = true := by
  obtain ⟨u, m, v, rfl, hm, hv⟩ := h
  rw [List.append_assoc]
  induction u with
  | nil =>
    have hne : m ++ v ≠ [] := by
      obtain ⟨s, w, rfl, _, _⟩ := hm
      simp
    rcases hx : m ++ v with _ | ⟨c, r⟩
    · exact absurd hx hne
    · simp only [List.nil_append, hx, searchP3, Bool.or_eq_true]
      exact Or.inl (hx ▸ p3At_of_core hm hv)
  | cons c u' ih =>
    simp only [List.cons_append, searchP3, Bool.or_eq_true]
    exact Or.inr ih

/-- `strip` of a text with a marked middle segment that neither starts nor
ends in whitespace: the segment survives, and what follows it afterwards
is a prefix of what followed it before. -/
theorem stripL_append_mid {u m v : List Char}
    (hh : ∃ c r, m = c :: r ∧ isWS c = false)
    (hl : ∃ c r, m.reverse = c :: r ∧ isWS c = false) :
    ∃ u' v', stripL (u ++ m ++ v) = u' ++ m ++ v' ∧ v' <+: v := by
  obtain ⟨c, r, hm1, hc⟩ := hh
  obtain ⟨e, re, hm2, he⟩ := hl
  have hstep1 : ∃ u0, (u ++ m ++ v).dropWhile isWS = u0 ++ (m ++ v) := by
    rw [List.append_assoc, List.dropWhile_append]
    split
    · refine ⟨[], ?_⟩
      rw [List.nil_append, List.dropWhile_append, hm1]
      simp [List.dropWhile_cons, hc]
    · exact ⟨_, rfl⟩
  obtain ⟨u0, h1⟩ := hstep1
  have hmrev : (m.reverse ++ u0.reverse).dropWhile isWS = m.reverse ++ u0.reverse := by
    rw [hm2]
    simp [List.dropWhile_cons, he]
  unfold stripL
  rw [h1, ← List.append_assoc, List.reverse_append, List.reverse_append,
    List.dropWhile_append]
  split
  · refine ⟨u0, [], ?_, List.nil_prefix⟩
    rw [hmrev]
    simp
  · refine ⟨u0, (v.reverse.dropWhile isWS).reverse, ?_, ?_⟩
    · simp [List.reverse_append, List.append_assoc]
    · have hs : v.reverse.dropWhile isWS <:+ v.reverse := List.dropWhile_suffix _
      simpa using List.reverse_prefix.mpr hs

end UIUC

namespace UIUC

/-- **C10.**  Any text containing "no prerequisites" as a case-insensitive
substring anywhere — or an occurrence of the `prerequisite[s]?:\s*none\b`
phrase — is put in the "none" bucket by the pre-parse classifier, even
when the text also contains course tokens and other clauses, because the
negative phrasings are searched as substrings rather than matched against
the whole text; such a record is never classified "course_only" or
"remaining". -/
theorem claim10_negative_phrase_substring (text : List Char)
    (h : "no prerequisites".data <:+: lowerL text ∨ P3occurs (lowerL text)) :
    analyzeBucket text = Bucket.noneB := by
  by_cases hE : (stripL text).isEmpty = true
  · simp [analyzeBucket, hE]
  · have hnone : isNoneText text = true := by
      unfold isNoneText
      rcases h with hp | hp
      · have h1 : "no prerequisites".data <:+: stripL (lowerL text) :=
          infix_stripL hp (by decide) (by decide)
        rw [stripL_lowerL] at h1
        have h2 := (infixB_iff _ _).mpr h1
        simp [h2]
      · obtain ⟨u, m, v, heq, hm, hv⟩ := hp
        have hh : ∃ c r, m = c :: r ∧ isWS c = false := by
          obtain ⟨s, w, rfl, _, _⟩ := hm
          exact ⟨'p', "rerequisite".data ++ s ++ ':' :: (w ++ "none".data), rfl, rfl⟩
        have hl : ∃ c r, m.reverse = c :: r ∧ isWS c = false := by
          obtain ⟨s, w, rfl, _, _⟩ := hm
          refine ⟨'e', 'n' :: 'o' :: 'n' :: (w.reverse ++
            (':' :: s.reverse ++ "prerequisite".data.reverse)), ?_, rfl⟩
          show (("prerequisite".data ++ s) ++ ':' :: (w ++ "none".data)).reverse = _
          rw [List.reverse_append, List.reverse_cons, List.reverse_append]
          simp [List.append_assoc]
        obtain ⟨u', v', hstrip, hpre⟩ := stripL_append_mid hh hl
        have hP3' : P3occurs (stripL (lowerL text)) := by
          refine ⟨u', m, v', by rw [heq, hstrip], hm, ?_⟩
          rcases hv with rfl | ⟨c, t, rfl, hc⟩
          · left
            simpa using List.prefix_nil.mp hpre
          · cases v' with
            | nil => exact Or.inl rfl
            | cons c0 t0 =>
              obtain ⟨z, hz⟩ := hpre
              rw [List.cons_append] at hz
              injection hz with hz1 hz2
              exact Or.inr ⟨c0, t0, rfl, by rw [hz1]; exact hc⟩
        rw [stripL_lowerL] at hP3'
        have h2 := searchP3_of_P3occurs hP3'
        simp [h2]
    simp [analyzeBucket, hE, hnone]

/-- **C10, witness.**  A text with course tokens and other clauses that
contains "No prerequisites" mid-text is still classified "none". -/
theorem claim10_negative_phrase_substring_witness :
    analyzeBucket
      "CS 225 and MATH 231. No prerequisites for the honors section".data =
      Bucket.noneB :=
  claim10_negative_phrase_substring
    "CS 225 and MATH 231. No prerequisites for the honors section".data
    (Or.inl ((infixB_iff _ _).mp rfl))

end UIUC

namespace UIUC

/-! ## C6 — course-token occurrences

`Occur T ref` says the course-token pattern matches somewhere inside `T`
producing the normalized reference `ref`: a 2–4 letter uppercase run, a
whitespace run, a 2–3 digit run, an optional trailing uppercase letter,
with `\b` satisfied on both sides.  This is the meaning of "`ref` is a
substring match of `T` under the course-token pattern". -/

def leftB (u : List Char) : Prop :=
  u = [] ∨ ∃ c, u.getLast? = some c ∧ isWordC c = false

def rightB (v : List Char) : Prop :=
  v = [] ∨ ∃ c, v.head? = some c ∧ isWordC c = false

def okParts (ls w ds ol : List Char) : Prop :=
  2 ≤ ls.length ∧ ls.length ≤ 4 ∧ (∀ c ∈ ls, isUpperC c = true) ∧
  (∀ c ∈ w, isWS c = true) ∧
  2 ≤ ds.length ∧ ds.length ≤ 3 ∧ (∀ c ∈ ds, isDigitC c = true) ∧
  (ol = [] ∨ ∃ c, ol = [c] ∧ isUpperC c = true)

def refOf (ls ds ol : List Char) : List Char := ls ++ ' ' :: (ds ++ ol)

def Occur (T ref : List Char) : Prop :=
  ∃ u ls w ds ol v, T = u ++ (ls ++ (w ++ (ds ++ (ol ++ v)))) ∧
    okParts ls w ds ol ∧ leftB u ∧ rightB v ∧ ref = refOf ls ds ol

/-- Character-class exclusivity facts. -/
theorem isUpperC_isWordC {c : Char} (h : isUpperC c = true) : isWordC c = true := by
  simp only [isUpperC, Bool.and_eq_true, decide_eq_true_eq] at h
  simp [isWordC, h]

theorem isDigitC_isWordC {c : Char} (h : isDigitC c = true) : isWordC c = true := by
  simp only [isDigitC, Bool.and_eq_true, decide_eq_true_eq] at h
  simp [isWordC, h]

theorem isUpperC_not_isWS {c : Char} (h : isUpperC c = true) : isWS c = false := by
  simp only [isUpperC, Bool.and_eq_true, decide_eq_true_eq] at h
  rw [isWS_toNat]
  simp only [Bool.or_eq_false_iff, decide_eq_false_iff_not]
  have h1 : 65 ≤ c.toNat := h.1
  have : ∀ d : Char, 'A' ≤ d → 65 ≤ d.toNat := fun d hd => hd
  omega

end UIUC

namespace UIUC

theorem isWS_not_isWordC {c : Char} (h : isWS c = true) : isWordC c = false := by
  rw [isWS_toNat] at h
  simp only [Bool.or_eq_true, decide_eq_true_eq] at h
  simp only [isWordC, Bool.or_eq_false_iff, Bool.and_eq_false_iff,
    decide_eq_false_iff_not]
  have hA : ∀ d : Char, ('A' ≤ d ↔ 65 ≤ d.toNat) := fun d => Iff.rfl
  have hZ : ∀ d : Char, (d ≤ 'Z' ↔ d.toNat ≤ 90) := fun d => Iff.rfl
  have ha : ∀ d : Char, ('a' ≤ d ↔ 97 ≤ d.toNat) := fun d => Iff.rfl
  have hz : ∀ d : Char, (d ≤ 'z' ↔ d.toNat ≤ 122) := fun d => Iff.rfl
  have h0 : ∀ d : Char, ('0' ≤ d ↔ 48 ≤ d.toNat) := fun d => Iff.rfl
  have h9 : ∀ d : Char, (d ≤ '9' ↔ d.toNat ≤ 57) := fun d => Iff.rfl
  have hu : (c = '_' ↔ c.toNat = 95) := charEq_iff_toNat c '_'
  rw [hA, hZ, ha, hz, h0, h9, hu]
  omega

theorem isDigitC_not_isWS {c : Char} (h : isDigitC c = true) : isWS c = false := by
  simp only [isDigitC, Bool.and_eq_true, decide_eq_true_eq] at h
  rw [isWS_toNat]
  simp only [Bool.or_eq_false_iff, decide_eq_false_iff_not]
  have h1 : 48 ≤ c.toNat := h.1
  omega

theorem isDigitC_not_isUpperC {c : Char} (h : isDigitC c = true) :
    isUpperC c = false := by
  simp only [isDigitC, Bool.and_eq_true, decide_eq_true_eq] at h
  simp only [isUpperC, Bool.and_eq_false_iff, decide_eq_false_iff_not]
  have h1 : 48 ≤ c.toNat := h.1
  have h2 : c.toNat ≤ 57 := h.2
  left
  intro hc
  have h3 : (65 : Nat) ≤ c.toNat := hc
  omega

/-- Splitting a list at the end of a `takeWhile` run. -/
theorem takeWhile_drop_split (p : Char → Bool) (l : List Char) :
    l = l.takeWhile p ++ l.drop (l.takeWhile p).length := by
  conv_lhs => rw [← List.take_append_drop (l.takeWhile p).length l]
  congr 1
  exact (List.prefix_iff_eq_take.mp (List.takeWhile_prefix p)).symm

end UIUC

namespace UIUC

/-- Soundness of the head matcher: a successful `matchCourse` yields a
pattern decomposition with a valid right boundary. -/
theorem matchCourse_sound {l : List Char} {ref : String} {len : Nat}
    (h : matchCourse l = some (ref, len)) :
    ∃ ls w ds ol v, l = ls ++ (w ++ (ds ++ (ol ++ v))) ∧ okParts ls w ds ol ∧
      rightB v ∧ ref.data = refOf ls ds ol ∧
      len = ls.length + w.length + ds.length + ol.length := by
  simp only [matchCourse] at h
  split_ifs at h with h1 h2
  set ls := l.takeWhile isUpperC with hls
  set r1 := l.drop ls.length with hr1
  set w := r1.takeWhile isWS with hw
  set r2 := r1.drop w.length with hr2
  set ds := r2.takeWhile isDigitC with hds
  set r3 := r2.drop ds.length with hr3
  simp only [Bool.or_eq_true, decide_eq_true_eq, not_or, not_lt] at h1 h2
  have hdec : l = ls ++ (w ++ (ds ++ r3)) := by
    rw [hr3, hds, hr2, hw, hr1, hls]
    rw [← takeWhile_drop_split, ← takeWhile_drop_split, ← takeWhile_drop_split]
  have hlsmem : ∀ c ∈ ls, isUpperC c = true := fun c hc => List.mem_takeWhile_imp hc
  have hwmem : ∀ c ∈ w, isWS c = true := fun c hc => List.mem_takeWhile_imp hc
  have hdsmem : ∀ c ∈ ds, isDigitC c = true := fun c hc => List.mem_takeWhile_imp hc
  have hok0 : 2 ≤ ls.length ∧ ls.length ≤ 4 := ⟨h1.1, h1.2⟩
  have hok1 : 2 ≤ ds.length ∧ ds.length ≤ 3 := ⟨h2.1, h2.2⟩
  rcases hr3eq : r3 with _ | ⟨c, r4⟩
  · rw [hr3eq] at h
    simp only [Option.some.injEq, Prod.mk.injEq] at h
    refine ⟨ls, w, ds, [], [], ?_, ?_, Or.inl rfl, ?_, ?_⟩
    · rw [hdec, hr3eq]
      simp
    · exact ⟨hok0.1, hok0.2, hlsmem, hwmem, hok1.1, hok1.2, hdsmem, Or.inl rfl⟩
    · rw [← h.1]
      simp [refOf]
    · simp only [List.length_nil]
      omega
  · rw [hr3eq] at h
    dsimp only at h
    by_cases hcu : isUpperC c = true
    · rw [if_pos hcu] at h
      rcases hr4eq : r4 with _ | ⟨c2, r5⟩
      · rw [hr4eq] at h
        dsimp only at h
        simp only [Option.some.injEq, Prod.mk.injEq] at h
        refine ⟨ls, w, ds, [c], [], ?_, ?_, Or.inl rfl, ?_, ?_⟩
        · rw [hdec, hr3eq, hr4eq]
          simp
        · exact ⟨hok0.1, hok0.2, hlsmem, hwmem, hok1.1, hok1.2, hdsmem,
            Or.inr ⟨c, rfl, hcu⟩⟩
        · rw [← h.1]
          simp [refOf]
        · simp [← h.2]
      · rw [hr4eq] at h
        dsimp only at h
        split_ifs at h with h3
        simp only [Option.some.injEq, Prod.mk.injEq] at h
        refine ⟨ls, w, ds, [c], c2 :: r5, ?_, ?_, ?_, ?_, ?_⟩
        · rw [hdec, hr3eq, hr4eq]
          simp
        · exact ⟨hok0.1, hok0.2, hlsmem, hwmem, hok1.1, hok1.2, hdsmem,
            Or.inr ⟨c, rfl, hcu⟩⟩
        · exact Or.inr ⟨c2, rfl, by simpa using h3⟩
        · rw [← h.1]
          simp [refOf]
        · simp [← h.2]
    · rw [if_neg hcu] at h
      split_ifs at h with h3
      simp only [Option.some.injEq, Prod.mk.injEq] at h
      refine ⟨ls, w, ds, [], c :: r4, ?_, ?_, ?_, ?_, ?_⟩
      · rw [hdec, hr3eq]
        simp
      · exact ⟨hok0.1, hok0.2, hlsmem, hwmem, hok1.1, hok1.2, hdsmem, Or.inl rfl⟩
      · exact Or.inr ⟨c, rfl, by simpa using h3⟩
      · rw [← h.1]
        simp [refOf]
      · simp [← h.2]

end UIUC

namespace UIUC

/-- Soundness of the scanner loop: every reported span corresponds to a
pattern decomposition, with the tracked boundary information about the
text to the left of the match. -/
theorem scanAux_sound :
    ∀ (fuel : Nat) (prevW : Bool) (pos : Nat) (l : List Char)
      (ref : String) (s e : Nat),
      (ref, s, e) ∈ scanAux fuel prevW pos l →
      ∃ u ls w ds ol v, l = u ++ (ls ++ (w ++ (ds ++ (ol ++ v)))) ∧
        okParts ls w ds ol ∧ rightB v ∧ ref.data = refOf ls ds ol ∧
        (u = [] → prevW = false) ∧
        (∀ c, u.getLast? = some c → isWordC c = false) := by
  intro fuel
  induction fuel with
  | zero => intro prevW pos l ref s e h; simp [scanAux] at h
  | succ fuel ih =>
    intro prevW pos l ref s e h
    cases l with
    | nil => simp [scanAux] at h
    | cons c rest =>
      rw [scanAux] at h
      split at h
      · -- prevW = true: step one character
        obtain ⟨u', ls, w, ds, ol, v, hdec, hok, hrb, href, hu0, hul⟩ :=
          ih _ _ _ _ _ _ h
        refine ⟨c :: u', ls, w, ds, ol, v, by rw [List.cons_append, ← hdec],
          hok, hrb, href, by simp, ?_⟩
        intro d hd
        cases u' with
        | nil =>
          simp at hd
          subst hd
          exact hu0 rfl
        | cons a t =>
          rw [List.getLast?_cons_cons] at hd
          exact hul d hd
      · next hnp =>
        have hpw : prevW = false := by simpa using hnp
        split at h
        · next ref0 len hmc =>
          rcases List.mem_cons.mp h with heq | htail
          · -- the reported span is the head match
            simp only [Prod.mk.injEq] at heq
            obtain ⟨rfl, rfl, rfl⟩ := heq
            obtain ⟨ls, w, ds, ol, v, hdec2, hok, hrb, href, -⟩ :=
              matchCourse_sound hmc
            exact ⟨[], ls, w, ds, ol, v, by simpa using hdec2, hok, hrb, href,
              fun _ => hpw, by simp⟩
          · -- the reported span comes after the match
            obtain ⟨u', ls, w, ds, ol, v, hdec, hok, hrb, href, hu0, hul⟩ :=
              ih _ _ _ _ _ _ htail
            have hu' : u' ≠ [] := fun hnil => by simpa using hu0 hnil
            obtain ⟨x, hx⟩ : ∃ x, u'.getLast? = some x := by
              cases hgl : u'.getLast? with
              | none => exact absurd (List.getLast?_eq_none_iff.mp hgl) hu'
              | some x => exact ⟨x, rfl⟩
            refine ⟨(c :: rest).take len ++ u', ls, w, ds, ol, v, ?_, hok, hrb,
              href, ?_, ?_⟩
            · rw [List.append_assoc, ← hdec, List.take_append_drop]
            · intro hnil
              rcases List.append_eq_nil.mp hnil with ⟨-, h2⟩
              exact absurd h2 hu'
            · intro d hd
              rw [List.getLast?_append, hx] at hd
              simp only [Option.or_some, Option.some.injEq] at hd
              subst hd
              exact hul x hx
        · -- no match: step one character
          obtain ⟨u', ls, w, ds, ol, v, hdec, hok, hrb, href, hu0, hul⟩ :=
            ih _ _ _ _ _ _ h
          refine ⟨c :: u', ls, w, ds, ol, v, by rw [List.cons_append, ← hdec],
            hok, hrb, href, by simp, ?_⟩
          intro d hd
          cases u' with
          | nil =>
            simp at hd
            subst hd
            exact hu0 rfl
          | cons a t =>
            rw [List.getLast?_cons_cons] at hd
            exact hul d hd

end UIUC

namespace UIUC

/-- Every span the scanner reports is a pattern occurrence. -/
theorem findCourseSpans_sound {T : List Char} {ref : String} {s e : Nat}
    (h : (ref, s, e) ∈ findCourseSpans T) : Occur T ref.data := by
  obtain ⟨u, ls, w, ds, ol, v, hdec, hok, hrb, href, hu0, hul⟩ :=
    scanAux_sound _ _ _ _ _ _ _ h
  refine ⟨u, ls, w, ds, ol, v, hdec, hok, ?_, hrb, href⟩
  cases hu : u.getLast? with
  | none => exact Or.inl (List.getLast?_eq_none_iff.mp hu)
  | some c => exact Or.inr ⟨c, hu, hul c hu⟩

theorem isWS_not_isUpperC {c : Char} (h : isWS c = true) : isUpperC c = false := by
  cases hu : isUpperC c
  · rfl
  · rw [isUpperC_not_isWS hu] at h
    cases h

theorem isUpperC_not_isDigitC {c : Char} (h : isUpperC c = true) :
    isDigitC c = false := by
  cases hd : isDigitC c
  · rfl
  · rw [isDigitC_not_isUpperC hd] at h
    cases h

theorem not_isWordC_not_isDigitC {c : Char} (h : isWordC c = false) :
    isDigitC c = false := by
  cases hd : isDigitC c
  · rfl
  · rw [isDigitC_isWordC hd] at h
    cases h

theorem not_isWordC_not_isUpperC {c : Char} (h : isWordC c = false) :
    isUpperC c = false := by
  cases hu : isUpperC c
  · rfl
  · rw [isUpperC_isWordC hu] at h
    cases h

/-- `takeWhile` over an append that satisfies the predicate exactly on the
first part. -/
theorem takeWhile_all_stop {p : Char → Bool} {a b : List Char}
    (ha : ∀ c ∈ a, p c = true) (hb : ∀ c, b.head? = some c → p c = false) :
    (a ++ b).takeWhile p = a := by
  induction a with
  | nil =>
    cases b with
    | nil => rfl
    | cons c t =>
      simp only [List.nil_append, List.takeWhile_cons, hb c rfl]
      rfl
  | cons c t ih =>
    rw [List.cons_append, List.takeWhile_cons, ha c (List.mem_cons_self c t)]
    simp only [if_true]
    rw [ih fun d hd => ha d (List.mem_cons_of_mem c hd)]

end UIUC

namespace UIUC

/-- Completeness of the head matcher: at a pattern decomposition,
`matchCourse` succeeds and returns exactly the decomposition's reference
and length (the occurrence at a given start position is unique). -/
theorem matchCourse_complete {ls w ds ol v : List Char}
    (hok : okParts ls w ds ol) (hrb : rightB v) :
    matchCourse (ls ++ (w ++ (ds ++ (ol ++ v)))) =
      some (⟨refOf ls ds ol⟩, ls.length + w.length + ds.length + ol.length) := by
  obtain ⟨hls2, hls4, hlsm, hwm, hds2, hds3, hdsm, hol⟩ := hok
  obtain ⟨d, dt, hdseq⟩ : ∃ d dt, ds = d :: dt := by
    cases ds with
    | nil => simp at hds2
    | cons d dt => exact ⟨d, dt, rfl⟩
  have hdd : isDigitC d = true := hdsm d (by rw [hdseq]; exact List.mem_cons_self d dt)
  have htw1 : (ls ++ (w ++ (ds ++ (ol ++ v)))).takeWhile isUpperC = ls := by
    apply takeWhile_all_stop hlsm
    intro c hc
    cases w with
    | cons wc wt =>
      simp only [List.cons_append, List.head?_cons, Option.some.injEq] at hc
      subst hc
      exact isWS_not_isUpperC (hwm _ (List.mem_cons_self _ wt))
    | nil =>
      rw [hdseq] at hc
      simp only [List.nil_append, List.cons_append, List.head?_cons,
        Option.some.injEq] at hc
      subst hc
      exact isDigitC_not_isUpperC hdd
  have htw2 : (w ++ (ds ++ (ol ++ v))).takeWhile isWS = w := by
    apply takeWhile_all_stop hwm
    intro c hc
    rw [hdseq] at hc
    simp only [List.cons_append, List.head?_cons, Option.some.injEq] at hc
    subst hc
    exact isDigitC_not_isWS hdd
  have htw3 : (ds ++ (ol ++ v)).takeWhile isDigitC = ds := by
    apply takeWhile_all_stop hdsm
    intro c hc
    rcases hol with rfl | ⟨c0, rfl, hc0⟩
    · rcases hrb with rfl | ⟨c1, hc1, hw1⟩
      · simp at hc
      · simp only [List.nil_append] at hc
        rw [hc1] at hc
        injection hc with hc
        subst hc
        exact not_isWordC_not_isDigitC hw1
    · simp only [List.cons_append, List.head?_cons, Option.some.injEq] at hc
      subst hc
      exact isUpperC_not_isDigitC hc0
  have hg1 : ¬ ((decide (ls.length < 2) || decide (4 < ls.length)) = true) := by
    simp only [Bool.or_eq_true, decide_eq_true_eq, not_or, not_lt]
    omega
  have hg2 : ¬ ((decide (ds.length < 2) || decide (3 < ds.length)) = true) := by
    simp only [Bool.or_eq_true, decide_eq_true_eq, not_or, not_lt]
    omega
  simp only [matchCourse, htw1, List.drop_left, htw2, htw3]
  rw [if_neg hg1, if_neg hg2]
  rcases hol with rfl | ⟨c0, rfl, hc0⟩
  · simp only [List.nil_append, List.append_nil]
    cases v with
    | nil =>
      simp [refOf]
    | cons c1 t1 =>
      rcases hrb with h' | ⟨c1', hc1, hw1⟩
      · cases h'
      · simp only [List.head?_cons, Option.some.injEq] at hc1
        subst hc1
        dsimp only
        rw [if_neg (by rw [not_isWordC_not_isUpperC hw1]; simp),
          if_neg (by rw [hw1]; simp)]
        simp [refOf]
  · simp only [List.cons_append]
    rw [if_pos hc0]
    cases v with
    | nil =>
      simp [refOf]
    | cons c1 t1 =>
      rcases hrb with h' | ⟨c1', hc1, hw1⟩
      · cases h'
      · simp only [List.head?_cons, Option.some.injEq] at hc1
        subst hc1
        simp only [List.nil_append]
        rw [if_neg (by rw [hw1]; simp)]
        simp [refOf]

end UIUC

namespace UIUC

theorem getLast?_some_of_ne_nil {l : List Char} (h : l ≠ []) :
    ∃ x, l.getLast? = some x := by
  cases hgl : l.getLast? with
  | none => exact absurd (List.getLast?_eq_none_iff.mp hgl) h
  | some x => exact ⟨x, rfl⟩

/-- The last character of a matched course-token region is a word
character (a digit or an uppercase letter). -/
theorem last_of_match_word {ls0 w0 ds0 ol0 : List Char}
    (hok : okParts ls0 w0 ds0 ol0) :
    ∃ cl, (ls0 ++ (w0 ++ (ds0 ++ ol0))).getLast? = some cl ∧
      isWordC cl = true := by
  obtain ⟨-, -, -, -, hds2, -, hdsm, hol⟩ := hok
  have hdsne : ds0 ≠ [] := by
    intro hnil
    rw [hnil] at hds2
    simp at hds2
  rcases hol with rfl | ⟨c0, rfl, hc0⟩
  · obtain ⟨dl, hdl⟩ := getLast?_some_of_ne_nil hdsne
    refine ⟨dl, ?_, isDigitC_isWordC (hdsm dl (List.mem_of_getLast?_eq_some hdl))⟩
    simp [List.getLast?_append, hdl]
  · refine ⟨c0, ?_, isUpperC_isWordC hc0⟩
    simp [List.getLast?_append]

/-- No course-token occurrence can begin strictly inside a matched
course-token region: if an uppercase letter begins at a split point of the
region with a nonempty left part, the character just before it is a word
character. -/
theorem upper_start_at_zero {ls0 w0 ds0 ol0 u k' : List Char} {c : Char}
    (hok : okParts ls0 w0 ds0 ol0)
    (heq : ls0 ++ (w0 ++ (ds0 ++ ol0)) = u ++ c :: k')
    (hc : isUpperC c = true) (hu : u ≠ []) :
    ∃ cl, u.getLast? = some cl ∧ isWordC cl = true := by
  obtain ⟨hls2, -, hlsm, hwm, hds2, -, hdsm, hol⟩ := hok
  have hdsne : ds0 ≠ [] := by
    intro hnil
    rw [hnil] at hds2
    simp at hds2
  rcases List.append_eq_append_iff.mp heq with ⟨a1, hu1, hb⟩ | ⟨c1, hls, hd⟩
  · rcases List.append_eq_append_iff.mp hb with ⟨t2, ha1, hb2⟩ | ⟨t2, hw0, hd2⟩
    · rcases List.append_eq_append_iff.mp hb2 with ⟨t3, ht2, hb3⟩ | ⟨t3, hds0, hd3⟩
      · -- the split point lies in the optional-letter part
        rcases hol with rfl | ⟨c0, rfl, hc0⟩
        · exact absurd hb3.symm (by simp)
        · cases t3 with
          | nil =>
            obtain ⟨dl, hdl⟩ := getLast?_some_of_ne_nil hdsne
            refine ⟨dl, ?_,
              isDigitC_isWordC (hdsm dl (List.mem_of_getLast?_eq_some hdl))⟩
            rw [hu1, ha1, ht2]
            simp [List.getLast?_append, hdl]
          | cons x xs =>
            rw [List.cons_append] at hb3
            injection hb3 with h1 h2
            exact absurd h2.symm (by simp)
      · cases t3 with
        | nil =>
          obtain ⟨dl, hdl⟩ := getLast?_some_of_ne_nil hdsne
          refine ⟨dl, ?_,
            isDigitC_isWordC (hdsm dl (List.mem_of_getLast?_eq_some hdl))⟩
          simp only [List.append_nil] at hds0
          rw [hu1, ha1, ← hds0]
          simp [List.getLast?_append, hdl]
        | cons x xs =>
          rw [List.cons_append] at hd3
          injection hd3 with h1 h2
          subst h1
          have hcx : c ∈ ds0 := by
            rw [hds0]
            exact List.mem_append_right t2 (List.mem_cons_self c xs)
          rw [isDigitC_not_isUpperC (hdsm c hcx)] at hc
          cases hc
    · cases t2 with
      | nil =>
        simp only [List.nil_append] at hd2
        cases hds : ds0 with
        | nil => exact absurd hds hdsne
        | cons d dt =>
          rw [hds, List.cons_append] at hd2
          injection hd2 with h1 h2
          subst h1
          have : isDigitC c = true := hdsm c (by rw [hds]; exact List.mem_cons_self c dt)
          rw [isDigitC_not_isUpperC this] at hc
          cases hc
      | cons x xs =>
        rw [List.cons_append] at hd2
        injection hd2 with h1 h2
        subst h1
        have hcx : c ∈ w0 := by
          rw [hw0]
          exact List.mem_append_right a1 (List.mem_cons_self c xs)
        rw [isWS_not_isUpperC (hwm c hcx)] at hc
        cases hc
  · obtain ⟨ul, hul⟩ := getLast?_some_of_ne_nil hu
    refine ⟨ul, hul, isUpperC_isWordC (hlsm ul ?_)⟩
    rw [hls]
    exact List.mem_append_left c1 (List.mem_of_getLast?_eq_some hul)

end UIUC

namespace UIUC

/-- Completeness of the scanner loop: every pattern occurrence (with valid
tracked left context) is reported. -/
theorem scanAux_complete :
    ∀ (fuel : Nat) (prevW : Bool) (pos : Nat) (l : List Char)
      (u ls w ds ol v : List Char),
      l.length < fuel →
      l = u ++ (ls ++ (w ++ (ds ++ (ol ++ v)))) →
      okParts ls w ds ol → rightB v →
      (u = [] → prevW = false) →
      (∀ c, u.getLast? = some c → isWordC c = false) →
      ∃ s e, ((⟨refOf ls ds ol⟩ : String), s, e) ∈ scanAux fuel prevW pos l := by
  intro fuel
  induction fuel with
  | zero => intro prevW pos l u ls w ds ol v hlen; omega
  | succ fuel ih =>
    intro prevW pos l u ls w ds ol v hlen hdec hok hrb hu0 hul
    have hlsne : ls ≠ [] := by
      intro hnil
      have := hok.1
      rw [hnil] at this
      simp at this
    cases l with
    | nil =>
      rcases List.append_eq_nil.mp hdec.symm with ⟨-, h2⟩
      rcases List.append_eq_nil.mp h2 with ⟨h3, -⟩
      exact absurd h3 hlsne
    | cons c rest =>
      cases hpw : prevW with
      | true =>
        -- the previous character is a word character, so `u` is nonempty
        cases u with
        | nil => simp [hu0 rfl] at hpw
        | cons c0 u' =>
          rw [List.cons_append] at hdec
          injection hdec with h1 h2
          subst h1
          have hstep := ih (isWordC c) (pos + 1) rest u' ls w ds ol v
            (by simpa using Nat.lt_of_succ_lt_succ (by simpa using hlen)) h2 hok hrb
            (fun hnil => by
              have := hul c (by rw [hnil]; rfl)
              exact this)
            (fun d hd => hul d (by
              cases u' with
              | nil => simp at hd
              | cons a t => rw [List.getLast?_cons_cons]; exact hd))
          obtain ⟨s, e, hmem⟩ := hstep
          exact ⟨s, e, by rw [scanAux]; simpa using hmem⟩
      | false =>
        rcases hmc : matchCourse (c :: rest) with _ | ⟨ref0, len0⟩
        · -- no match at this position: step one character
          cases u with
          | nil =>
            rw [List.nil_append] at hdec
            have := matchCourse_complete hok hrb
            rw [← hdec, hmc] at this
            cases this
          | cons c0 u' =>
            rw [List.cons_append] at hdec
            injection hdec with h1 h2
            subst h1
            have hstep := ih (isWordC c) (pos + 1) rest u' ls w ds ol v
              (by simpa using Nat.lt_of_succ_lt_succ (by simpa using hlen)) h2 hok hrb
              (fun hnil => by
                have := hul c (by rw [hnil]; rfl)
                exact this)
              (fun d hd => hul d (by
                cases u' with
                | nil => simp at hd
                | cons a t => rw [List.getLast?_cons_cons]; exact hd))
            obtain ⟨s, e, hmem⟩ := hstep
            refine ⟨s, e, ?_⟩
            rw [scanAux, hmc]
            simpa using hmem
        · -- a match at this position
          cases u with
          | nil =>
            rw [List.nil_append] at hdec
            have hcm := matchCourse_complete hok hrb
            rw [← hdec, hmc] at hcm
            injection hcm with hcm
            injection hcm with hr hl
            refine ⟨pos, pos + len0, ?_⟩
            rw [scanAux, hmc]
            simp only [Bool.false_eq_true, if_false, List.mem_cons]
            left
            rw [hr]
          | cons c0 u' =>
            obtain ⟨ls0, w0, ds0, ol0, v0, hdec0, hok0, hrb0, href0, hlen0⟩ :=
              matchCourse_sound hmc
            have hune : (c0 :: u') ≠ [] := by simp
            have hmv : (ls0 ++ (w0 ++ (ds0 ++ ol0))) ++ v0 =
                (c0 :: u') ++ (ls ++ (w ++ (ds ++ (ol ++ v)))) := by
              rw [← hdec, hdec0]
              simp [List.append_assoc]
            obtain ⟨cl, hcl, hclw⟩ := last_of_match_word hok0
            rcases List.append_eq_append_iff.mp hmv with ⟨t, hu2, hv0⟩ | ⟨t, hm, hA⟩
            · cases t with
              | nil =>
                rw [List.append_nil] at hu2
                rw [← hu2] at hcl
                rw [hul cl hcl] at hclw
                cases hclw
              | cons x t' =>
                -- the occurrence starts after the reported match: recurse
                have hdrop : ((c :: rest).drop len0) =
                    (x :: t') ++ (ls ++ (w ++ (ds ++ (ol ++ v)))) := by
                  rw [hdec, hu2]
                  rw [List.append_assoc]
                  have : len0 = (ls0 ++ (w0 ++ (ds0 ++ ol0))).length := by
                    rw [hlen0]
                    simp [List.length_append]
                    omega
                  rw [this, List.drop_left]
                have hlen2 : ((x :: t') ++ (ls ++ (w ++ (ds ++ (ol ++ v))))).length < fuel := by
                  have h1 : (c :: rest).length < fuel + 1 := hlen
                  have h2 : (c :: rest).length =
                      (ls0 ++ (w0 ++ (ds0 ++ ol0))).length +
                      ((x :: t') ++ (ls ++ (w ++ (ds ++ (ol ++ v))))).length := by
                    conv_lhs => rw [hdec, hu2]
                    simp [List.length_append]
                    omega
                  have h3 : 2 ≤ (ls0 ++ (w0 ++ (ds0 ++ ol0))).length := by
                    have := hok0.1
                    simp [List.length_append]
                    omega
                  omega
                have hstep := ih true (pos + len0)
                  ((x :: t') ++ (ls ++ (w ++ (ds ++ (ol ++ v)))))
                  (x :: t') ls w ds ol v hlen2 rfl hok hrb
                  (by simp)
                  (fun d hd => by
                    apply hul
                    rw [hu2, List.getLast?_append, hd]
                    rfl)
                obtain ⟨s, e, hmem⟩ := hstep
                refine ⟨s, e, ?_⟩
                rw [scanAux, hmc]
                rw [← hdrop] at hmem
                exact List.mem_cons_of_mem _ hmem
            · cases t with
              | nil =>
                rw [List.append_nil] at hm
                rw [hm] at hcl
                rw [hul cl hcl] at hclw
                cases hclw
              | cons x t' =>
                -- an occurrence cannot start strictly inside the match
                exfalso
                cases hls : ls with
                | nil => exact hlsne hls
                | cons l1 lt =>
                  rw [hls, List.cons_append, List.cons_append] at hA
                  injection hA with hA1 hA2
                  have hl1 : isUpperC x = true := by
                    rw [← hA1]
                    exact hok.2.2.1 l1 (by rw [hls]; exact List.mem_cons_self l1 lt)
                  obtain ⟨cl2, hcl2, hclw2⟩ :=
                    upper_start_at_zero hok0 hm hl1 hune
                  rw [hul cl2 hcl2] at hclw2
                  cases hclw2
end UIUC

namespace UIUC

/-- Every pattern occurrence is reported by `find_course_spans`. -/
theorem findCourseSpans_complete {T ref : List Char} (h : Occur T ref) :
    ∃ s e, ((⟨ref⟩ : String), s, e) ∈ findCourseSpans T := by
  obtain ⟨u, ls, w, ds, ol, v, hdec, hok, hlb, hrb, rfl⟩ := h
  apply scanAux_complete (T.length + 1) false 0 T u ls w ds ol v (by omega) hdec
    hok hrb (fun _ => rfl)
  intro c hc
  rcases hlb with rfl | ⟨c2, hc2, hw2⟩
  · simp at hc
  · rw [hc2] at hc
    injection hc with hc
    subst hc
    exact hw2

/-! ## Whitespace-normalization steps

`normSpace` is reached from the original text by repeatedly deleting a
whitespace character that has a whitespace character right after it,
rewriting a whitespace character to a plain space, deleting a trailing
whitespace character, and deleting a leading whitespace character.  Each
step preserves pattern occurrences backwards, which transfers occurrences
in the normalized text to the original. -/

inductive WStep : List Char → List Char → Prop where
  | collapse (a b : List Char) (c d : Char) : isWS c = true → isWS d = true →
      WStep (a ++ c :: d :: b) (a ++ d :: b)
  | toSpace (a b : List Char) (c : Char) : isWS c = true →
      WStep (a ++ c :: b) (a ++ ' ' :: b)
  | dropTail (a : List Char) (c : Char) : isWS c = true →
      WStep (a ++ [c]) a

inductive HStep : List Char → List Char → Prop where
  | inner {x y : List Char} : WStep x y → HStep x y
  | dropHead (b : List Char) (c : Char) : isWS c = true → HStep (c :: b) b

/-- Locate a distinguished character relative to a two-part split. -/
theorem locate_char {a b u rest : List Char} {d : Char}
    (h : a ++ d :: b = u ++ rest) :
    (∃ t, u = a ++ d :: t ∧ b = t ++ rest) ∨
    (∃ t, a = u ++ t ∧ rest = t ++ d :: b) := by
  rcases List.append_eq_append_iff.mp h with ⟨t, hu, hb⟩ | ⟨t, ha, hrest⟩
  · cases t with
    | nil =>
      right
      exact ⟨[], by simp [hu], by simpa using hb.symm⟩
    | cons x t' =>
      left
      rw [List.cons_append] at hb
      injection hb with h1 h2
      subst h1
      exact ⟨t', by rw [hu], h2⟩
  · right
    exact ⟨t, ha, hrest⟩

end UIUC

namespace UIUC

/-- Locate a distinguished character of the text inside the six-part
occurrence decomposition. -/
theorem locate_occur {a b u ls w ds ol v : List Char} {d : Char}
    (h : a ++ d :: b = u ++ (ls ++ (w ++ (ds ++ (ol ++ v))))) :
    (∃ t, u = a ++ d :: t ∧ b = t ++ (ls ++ (w ++ (ds ++ (ol ++ v))))) ∨
    d ∈ ls ∨
    (∃ t1 t2, w = t1 ++ d :: t2 ∧ a = u ++ (ls ++ t1) ∧
        b = t2 ++ (ds ++ (ol ++ v))) ∨
    d ∈ ds ∨
    d ∈ ol ∨
    (∃ t, v = t ++ d :: b ∧ a = u ++ (ls ++ (w ++ (ds ++ (ol ++ t))))) := by
  rcases locate_char h with ⟨t, hu, hb⟩ | ⟨t1, ha1, h1⟩
  · exact Or.inl ⟨t, hu, hb⟩
  rcases locate_char h1.symm with ⟨t, hls, _⟩ | ⟨t2, ht1, h2⟩
  · exact Or.inr (Or.inl (by rw [hls]; simp))
  rcases locate_char h2.symm with ⟨t3, hw, hb⟩ | ⟨t3, ht2, h3⟩
  · exact Or.inr (Or.inr (Or.inl ⟨t2, t3, hw, by rw [ha1, ht1], hb⟩))
  rcases locate_char h3.symm with ⟨t4, hds, _⟩ | ⟨t4, ht3, h4⟩
  · exact Or.inr (Or.inr (Or.inr (Or.inl (by rw [hds]; simp))))
  rcases locate_char h4.symm with ⟨t5, hol, _⟩ | ⟨t5, ht4, h5⟩
  · exact Or.inr (Or.inr (Or.inr (Or.inr (Or.inl (by rw [hol]; simp)))))
  · refine Or.inr (Or.inr (Or.inr (Or.inr (Or.inr ⟨t5, h5, ?_⟩))))
    rw [ha1, ht1, ht2, ht3, ht4]

/-- A single whitespace-normalization step preserves occurrences backwards. -/
theorem occur_back_W {x y ref : List Char} (hs : WStep x y) (ho : Occur y ref) :
    Occur x ref := by
  cases hs with
  | collapse a b c d hc hd =>
    obtain ⟨u, ls, w, ds, ol, v, hdec, hok, hlb, hrb, href⟩ := ho
    obtain ⟨hl2, hl4, hlsU, hwWS, hd2, hd3, hdsD, holP⟩ := hok
    rcases locate_occur hdec with ⟨t, hu, hb⟩ | hmem | ⟨t1, t2, hw, ha, hb⟩ |
      hmem | hmem | ⟨t, hv, ha⟩
    · subst hu; subst hb
      refine ⟨a ++ c :: d :: t, ls, w, ds, ol, v, by simp,
        ⟨hl2, hl4, hlsU, hwWS, hd2, hd3, hdsD, holP⟩, ?_, hrb, href⟩
      rcases hlb with h0 | ⟨cl, hcl, hwcl⟩
      · simp at h0
      · refine Or.inr ⟨cl, ?_, hwcl⟩
        rw [List.getLast?_append, List.getLast?_cons_cons,
          ← List.getLast?_append]
        exact hcl
    · have h1 := hlsU d hmem
      simp [isWS_not_isUpperC hd] at h1
    · subst ha; subst hb
      refine ⟨u, ls, t1 ++ c :: d :: t2, ds, ol, v, by simp,
        ⟨hl2, hl4, hlsU, ?_, hd2, hd3, hdsD, holP⟩, hlb, hrb, href⟩
      intro e he
      rw [List.mem_append] at he
      rcases he with h1 | h2
      · exact hwWS e (by rw [hw]; exact List.mem_append_left _ h1)
      rcases List.mem_cons.mp h2 with rfl | h3
      · exact hc
      rcases List.mem_cons.mp h3 with rfl | h4
      · exact hd
      · refine hwWS e ?_
        rw [hw]
        exact List.mem_append_right _ (List.mem_cons_of_mem _ h4)
    · have h1 := hdsD d hmem
      have h2 := isDigitC_not_isWS h1
      rw [hd] at h2
      exact absurd h2 (by simp)
    · rcases holP with rfl | ⟨c0, rfl, hu0⟩
      · simp at hmem
      · rw [List.mem_singleton] at hmem
        subst hmem
        simp [isWS_not_isUpperC hd] at hu0
    · subst ha; subst hv
      refine ⟨u, ls, w, ds, ol, t ++ c :: d :: b, by simp,
        ⟨hl2, hl4, hlsU, hwWS, hd2, hd3, hdsD, holP⟩, hlb, ?_, href⟩
      cases t with
      | nil => exact Or.inr ⟨c, rfl, isWS_not_isWordC hc⟩
      | cons e t' =>
        rcases hrb with h0 | ⟨ch, hch, hwch⟩
        · simp at h0
        · refine Or.inr ⟨ch, ?_, hwch⟩
          rw [List.cons_append] at hch ⊢
          exact hch
  | toSpace a b c hc =>
    obtain ⟨u, ls, w, ds, ol, v, hdec, hok, hlb, hrb, href⟩ := ho
    obtain ⟨hl2, hl4, hlsU, hwWS, hd2, hd3, hdsD, holP⟩ := hok
    rcases locate_occur hdec with ⟨t, hu, hb⟩ | hmem | ⟨t1, t2, hw, ha, hb⟩ |
      hmem | hmem | ⟨t, hv, ha⟩
    · subst hu; subst hb
      refine ⟨a ++ c :: t, ls, w, ds, ol, v, by simp,
        ⟨hl2, hl4, hlsU, hwWS, hd2, hd3, hdsD, holP⟩, ?_, hrb, href⟩
      cases t with
      | nil =>
        refine Or.inr ⟨c, ?_, isWS_not_isWordC hc⟩
        rw [List.getLast?_append]
        rfl
      | cons e t' =>
        rcases hlb with h0 | ⟨cl, hcl, hwcl⟩
        · simp at h0
        · refine Or.inr ⟨cl, ?_, hwcl⟩
          rw [List.getLast?_append, List.getLast?_cons_cons,
            ← List.getLast?_append]
          rw [List.getLast?_append, List.getLast?_cons_cons,
            ← List.getLast?_append] at hcl
          exact hcl
    · exact absurd (hlsU _ hmem) (by decide)
    · subst ha; subst hb
      refine ⟨u, ls, t1 ++ c :: t2, ds, ol, v, by simp,
        ⟨hl2, hl4, hlsU, ?_, hd2, hd3, hdsD, holP⟩, hlb, hrb, href⟩
      intro e he
      rw [List.mem_append] at he
      rcases he with h1 | h2
      · exact hwWS e (by rw [hw]; exact List.mem_append_left _ h1)
      rcases List.mem_cons.mp h2 with rfl | h4
      · exact hc
      · refine hwWS e ?_
        rw [hw]
        exact List.mem_append_right _ (List.mem_cons_of_mem _ h4)
    · exact absurd (hdsD _ hmem) (by decide)
    · rcases holP with rfl | ⟨c0, rfl, hu0⟩
      · simp at hmem
      · rw [List.mem_singleton] at hmem
        subst hmem
        exact absurd hu0 (by decide)
    · subst ha; subst hv
      refine ⟨u, ls, w, ds, ol, t ++ c :: b, by simp,
        ⟨hl2, hl4, hlsU, hwWS, hd2, hd3, hdsD, holP⟩, hlb, ?_, href⟩
      cases t with
      | nil => exact Or.inr ⟨c, rfl, isWS_not_isWordC hc⟩
      | cons e t' =>
        rcases hrb with h0 | ⟨ch, hch, hwch⟩
        · simp at h0
        · refine Or.inr ⟨ch, ?_, hwch⟩
          rw [List.cons_append] at hch ⊢
          exact hch
  | dropTail a c hc =>
    obtain ⟨u, ls, w, ds, ol, v, hdec, hok, hlb, hrb, href⟩ := ho
    subst hdec
    refine ⟨u, ls, w, ds, ol, v ++ [c], by simp, hok, hlb, ?_, href⟩
    cases v with
    | nil => exact Or.inr ⟨c, rfl, isWS_not_isWordC hc⟩
    | cons e t =>
      rcases hrb with h0 | ⟨ch, hch, hwch⟩
      · simp at h0
      · refine Or.inr ⟨ch, ?_, hwch⟩
        rw [List.cons_append]
        exact hch

/-- A single head-dropping or inner step preserves occurrences backwards. -/
theorem occur_back_H {x y ref : List Char} (hs : HStep x y) (ho : Occur y ref) :
    Occur x ref := by
  cases hs with
  | inner hw => exact occur_back_W hw ho
  | dropHead b c hc =>
    obtain ⟨u, ls, w, ds, ol, v, hdec, hok, hlb, hrb, href⟩ := ho
    subst hdec
    refine ⟨c :: u, ls, w, ds, ol, v, rfl, hok, ?_, hrb, href⟩
    cases u with
    | nil => exact Or.inr ⟨c, rfl, isWS_not_isWordC hc⟩
    | cons e t =>
      rcases hlb with h0 | ⟨cl, hcl, hwcl⟩
      · simp at h0
      · exact Or.inr ⟨cl, by rw [List.getLast?_cons_cons]; exact hcl, hwcl⟩

/-- Occurrence transfer along a whole normalization run. -/
theorem occur_back_star {x y ref : List Char}
    (hs : Relation.ReflTransGen HStep x y) (ho : Occur y ref) : Occur x ref := by
  induction hs with
  | refl => exact ho
  | tail _ hstep ih => exact ih (occur_back_H hstep ho)

end UIUC

namespace UIUC

/-- `normSpaceAux` is fuel-irrelevant above the length of the input. -/
theorem normSpaceAux_congr : ∀ f f' (l : List Char), l.length < f →
    l.length < f' → normSpaceAux f l = normSpaceAux f' l := by
  intro f
  induction f with
  | zero => intro f' l h _; exact absurd h (by omega)
  | succ f0 ih =>
    intro f' l hf hf'
    cases f' with
    | zero => exact absurd hf' (by omega)
    | succ f1 =>
      simp only [normSpaceAux]
      cases hdrop : l.dropWhile isWS with
      | nil => rfl
      | cons c rest =>
        have hlen : rest.length + 1 ≤ l.length := by
          have h1 := (List.dropWhile_sublist (l := l) isWS).length_le
          rw [hdrop] at h1
          simpa using h1
        have hr : (rest.dropWhile (fun d => !isWS d)).length ≤ rest.length :=
          (List.dropWhile_sublist _).length_le
        dsimp only
        rw [ih f1 (rest.dropWhile (fun d => !isWS d)) (by omega) (by omega)]

/-- One-step unfolding of `normSpaceAux` at positive fuel. -/
theorem normSpaceAux_succ (n : Nat) (l : List Char) :
    normSpaceAux (n + 1) l =
      match l.dropWhile isWS with
      | [] => []
      | c :: rest =>
        match normSpaceAux n (rest.dropWhile (fun d => !isWS d)) with
        | [] => c :: rest.takeWhile (fun d => !isWS d)
        | m => (c :: rest.takeWhile (fun d => !isWS d)) ++ ' ' :: m := rfl

theorem dropWhile_idem (p : Char → Bool) (l : List Char) :
    (l.dropWhile p).dropWhile p = l.dropWhile p := by
  induction l with
  | nil => rfl
  | cons c rest ih =>
    by_cases h : p c
    · simp [List.dropWhile_cons, h, ih]
    · simp [List.dropWhile_cons, h]

theorem head_dropWhile_false (p : Char → Bool) :
    ∀ (l : List Char) (c : Char) (t : List Char),
      l.dropWhile p = c :: t → p c = false := by
  intro l
  induction l with
  | nil => intro c t h; exact absurd h (by simp)
  | cons a l' ih =>
    intro c t h
    rw [List.dropWhile_cons] at h
    by_cases hpa : p a
    · rw [if_pos hpa] at h
      exact ih c t h
    · rw [if_neg hpa] at h
      injection h with h1 _
      rw [← h1]
      simp at hpa
      exact hpa

/-- Unfolding of `normSpace` when the stripped text is nonempty. -/
theorem normSpace_cons_eq {l : List Char} {c : Char} {rest : List Char}
    (hdrop : l.dropWhile isWS = c :: rest) :
    normSpace l =
      match normSpace (rest.dropWhile (fun d => !isWS d)) with
      | [] => c :: rest.takeWhile (fun d => !isWS d)
      | m => (c :: rest.takeWhile (fun d => !isWS d)) ++ ' ' :: m := by
  have hlen : rest.length + 1 ≤ l.length := by
    have h1 := (List.dropWhile_sublist (l := l) isWS).length_le
    rw [hdrop] at h1
    simpa using h1
  have hr : (rest.dropWhile (fun d => !isWS d)).length ≤ rest.length :=
    (List.dropWhile_sublist _).length_le
  have hcong := normSpaceAux_congr l.length
    ((rest.dropWhile (fun d => !isWS d)).length + 1)
    (rest.dropWhile (fun d => !isWS d)) (by omega) (by omega)
  show normSpaceAux (l.length + 1) l = _
  rw [normSpaceAux_succ, hdrop]
  dsimp only
  rw [hcong]
  rfl

theorem normSpace_nil_eq {l : List Char} (hdrop : l.dropWhile isWS = []) :
    normSpace l = [] := by
  show normSpaceAux (l.length + 1) l = _
  rw [normSpaceAux_succ, hdrop]

/-- Dropping leading whitespace does not change the normalization. -/
theorem normSpace_dropWhile (l : List Char) :
    normSpace (l.dropWhile isWS) = normSpace l := by
  cases hdrop : l.dropWhile isWS with
  | nil => rw [normSpace_nil_eq hdrop, normSpace_nil_eq (by rw [← hdrop]; rw [hdrop]; rfl)]
  | cons c rest =>
    have hfix : (c :: rest).dropWhile isWS = c :: rest := by
      rw [← hdrop]
      exact dropWhile_idem isWS l
    rw [normSpace_cons_eq hfix, normSpace_cons_eq hdrop]

end UIUC

namespace UIUC

theorem wstep_left_congr (p : List Char) {x y : List Char} (hs : WStep x y) :
    WStep (p ++ x) (p ++ y) := by
  cases hs with
  | collapse a b c d hc hd =>
    rw [← List.append_assoc, ← List.append_assoc]
    exact WStep.collapse (p ++ a) b c d hc hd
  | toSpace a b c hc =>
    rw [← List.append_assoc, ← List.append_assoc]
    exact WStep.toSpace (p ++ a) b c hc
  | dropTail a c hc =>
    rw [← List.append_assoc]
    exact WStep.dropTail (p ++ y) c hc

theorem wstar_left_congr (p : List Char) {x y : List Char}
    (hs : Relation.ReflTransGen WStep x y) :
    Relation.ReflTransGen WStep (p ++ x) (p ++ y) := by
  induction hs with
  | refl => exact Relation.ReflTransGen.refl
  | tail _ hstep ih => exact Relation.ReflTransGen.tail ih (wstep_left_congr p hstep)

theorem hstar_of_wstar {x y : List Char}
    (hs : Relation.ReflTransGen WStep x y) :
    Relation.ReflTransGen HStep x y := by
  induction hs with
  | refl => exact Relation.ReflTransGen.refl
  | tail _ hstep ih => exact Relation.ReflTransGen.tail ih (HStep.inner hstep)

/-- A run of trailing whitespace can be deleted, one char at a time. -/
theorem star_dropTail_all (x : List Char) :
    ∀ r : List Char, (∀ c ∈ r, isWS c = true) →
      Relation.ReflTransGen WStep (x ++ r) x := by
  intro r
  induction r using List.reverseRecOn with
  | nil => intro _; rw [List.append_nil]
  | append_singleton r' d ih =>
    intro hall
    rw [← List.append_assoc]
    refine Relation.ReflTransGen.head
      (WStep.dropTail (x ++ r') d (hall d (by simp))) ?_
    exact ih (fun c hc => hall c (List.mem_append_left _ hc))

/-- A nonempty run of whitespace collapses to a single plain space. -/
theorem star_collapse_run (x y : List Char) :
    ∀ g : List Char, g ≠ [] → (∀ c ∈ g, isWS c = true) →
      Relation.ReflTransGen WStep (x ++ (g ++ y)) (x ++ ' ' :: y) := by
  intro g
  induction g with
  | nil => intro h _; exact absurd rfl h
  | cons d g' ih =>
    intro _ hall
    cases g' with
    | nil =>
      exact Relation.ReflTransGen.single
        (WStep.toSpace x y d (hall d (List.mem_cons_self d [])))
    | cons d2 g'' =>
      refine Relation.ReflTransGen.head
        (WStep.collapse x (g'' ++ y) d d2 (hall d (by simp)) (hall d2 (by simp))) ?_
      exact ih (by simp) (fun c hc => hall c (List.mem_cons_of_mem _ hc))

/-- A run of leading whitespace can be deleted, one char at a time. -/
theorem star_dropHead_all :
    ∀ g l : List Char, (∀ c ∈ g, isWS c = true) →
      Relation.ReflTransGen HStep (g ++ l) l := by
  intro g
  induction g with
  | nil => intro l _; exact Relation.ReflTransGen.refl
  | cons c g' ih =>
    intro l hall
    refine Relation.ReflTransGen.head
      (HStep.dropHead (g' ++ l) c (hall c (by simp))) ?_
    exact ih l (fun e he => hall e (List.mem_cons_of_mem _ he))


/-- Inner reachability: a text with no leading whitespace rewrites to its
normalization without ever touching the head. -/
theorem reach_normSpace_inner :
    ∀ (n : Nat) (l : List Char), l.length ≤ n → l.dropWhile isWS = l →
      Relation.ReflTransGen WStep l (normSpace l) := by
  intro n
  induction n with
  | zero =>
    intro l hn _
    have hnil : l = [] := List.eq_nil_of_length_eq_zero (by omega)
    subst hnil
    exact Relation.ReflTransGen.refl
  | succ m ih =>
    intro l hn hfix
    cases l with
    | nil => exact Relation.ReflTransGen.refl
    | cons c rest =>
      have htw : rest = rest.takeWhile (fun d => !isWS d) ++
          rest.dropWhile (fun d => !isWS d) :=
        (List.takeWhile_append_dropWhile _ _).symm
      cases hrr : rest.dropWhile (fun d => !isWS d) with
      | nil =>
        rw [hrr, List.append_nil] at htw
        have hempty : normSpace ([] : List Char) = [] := rfl
        rw [normSpace_cons_eq hfix, hrr, hempty]
        dsimp only
        rw [← htw]
      | cons rc rt =>
        rw [hrr] at htw
        have hrcws : isWS rc = true := by
          have h0 := head_dropWhile_false (fun d => !isWS d) rest rc rt hrr
          simp at h0
          exact h0
        cases hr2 : (rc :: rt).dropWhile isWS with
        | nil =>
          have hallws : ∀ e ∈ rc :: rt, isWS e = true :=
            List.dropWhile_eq_nil_iff.mp hr2
          have hempty : normSpace (rc :: rt) = [] := by
            rw [← normSpace_dropWhile (rc :: rt), hr2]
            rfl
          rw [normSpace_cons_eq hfix, hrr, hempty]
          dsimp only
          have hstar := star_dropTail_all
            (c :: rest.takeWhile (fun d => !isWS d)) (rc :: rt) hallws
          have hEq : c :: rest =
              (c :: rest.takeWhile (fun d => !isWS d)) ++ (rc :: rt) := by
            rw [List.cons_append, ← htw]
          rw [hEq]
          exact hstar
        | cons e t2 =>
          have hfix2 : (e :: t2).dropWhile isWS = e :: t2 := by
            have h0 := dropWhile_idem isWS (rc :: rt)
            rw [hr2] at h0
            exact h0
          have hb1 := (List.dropWhile_sublist (l := rc :: rt) isWS).length_le
          rw [hr2] at hb1
          have hb2 :=
            (List.dropWhile_sublist (l := rest) (fun d => !isWS d)).length_le
          rw [hrr] at hb2
          have ihr := ih (e :: t2)
            (by simp only [List.length_cons] at hb1 hb2 hn ⊢; omega) hfix2
          have hnr : normSpace (rc :: rt) = normSpace (e :: t2) := by
            have h0 := (normSpace_dropWhile (rc :: rt)).symm
            rw [hr2] at h0
            exact h0
          have hne : normSpace (e :: t2) ≠ [] := by
            rw [normSpace_cons_eq hfix2]
            cases normSpace (t2.dropWhile (fun d => !isWS d)) with
            | nil => simp
            | cons z zs => simp
          have hsplit2 := (List.takeWhile_append_dropWhile isWS (rc :: rt)).symm
          rw [hr2] at hsplit2
          have hgne : (rc :: rt).takeWhile isWS ≠ [] := by
            rw [List.takeWhile_cons, if_pos hrcws]
            simp
          have hgall : ∀ x ∈ (rc :: rt).takeWhile isWS, isWS x = true :=
            fun x hx => List.mem_takeWhile_imp hx
          rw [normSpace_cons_eq hfix, hrr, hnr]
          cases hns : normSpace (e :: t2) with
          | nil => exact absurd hns hne
          | cons z zs =>
            dsimp only
            have h1 : Relation.ReflTransGen WStep (c :: rest)
                ((c :: rest.takeWhile (fun d => !isWS d)) ++ ' ' :: (e :: t2)) := by
              have hs := star_collapse_run
                (c :: rest.takeWhile (fun d => !isWS d)) (e :: t2)
                ((rc :: rt).takeWhile isWS) hgne hgall
              have hEq : c :: rest =
                  (c :: rest.takeWhile (fun d => !isWS d)) ++
                    ((rc :: rt).takeWhile isWS ++ (e :: t2)) := by
                rw [List.cons_append, ← hsplit2, ← htw]
              rw [hEq]
              exact hs
            have h2 : Relation.ReflTransGen WStep
                ((c :: rest.takeWhile (fun d => !isWS d)) ++ ' ' :: (e :: t2))
                ((c :: rest.takeWhile (fun d => !isWS d)) ++
                  ' ' :: normSpace (e :: t2)) := by
              have hs := wstar_left_congr
                ((c :: rest.takeWhile (fun d => !isWS d)) ++ [' ']) ihr
              rw [List.append_assoc, List.append_assoc] at hs
              exact hs
            rw [hns] at h2
            exact h1.trans h2

/-- Every text rewrites to its whitespace normalization. -/
theorem reach_normSpace (l : List Char) :
    Relation.ReflTransGen HStep l (normSpace l) := by
  have hsplit := (List.takeWhile_append_dropWhile isWS l).symm
  have hall : ∀ x ∈ l.takeWhile isWS, isWS x = true :=
    fun x hx => List.mem_takeWhile_imp hx
  have h1 : Relation.ReflTransGen HStep l (l.dropWhile isWS) := by
    have hs := star_dropHead_all (l.takeWhile isWS) (l.dropWhile isWS) hall
    rw [← hsplit] at hs
    exact hs
  have h2 := reach_normSpace_inner (l.dropWhile isWS).length (l.dropWhile isWS)
    le_rfl (dropWhile_idem isWS l)
  rw [normSpace_dropWhile] at h2
  exact h1.trans (hstar_of_wstar h2)

/-- Occurrences in the normalized text come from the original text. -/
theorem occur_of_normSpace {l ref : List Char}
    (h : Occur (normSpace l) ref) : Occur l ref :=
  occur_back_star (reach_normSpace l) h

end UIUC

namespace UIUC

theorem splitSep_ne_nil (sep : Char) : ∀ T, splitSep sep T ≠ [] := by
  intro T
  cases T with
  | nil => simp [splitSep]
  | cons c rest =>
    simp only [splitSep]
    by_cases h : c = sep
    · rw [if_pos h]
      simp
    · rw [if_neg h]
      cases splitSep sep rest with
      | nil => simp
      | cons h0 t0 => simp

/-- The first piece of a separator split is a prefix of the text, with a
separator (or the end of the text) right after it. -/
theorem splitSep_head_context (sep : Char) :
    ∀ T h t, splitSep sep T = h :: t →
      ∃ vv, T = h ++ vv ∧ (vv = [] ∨ vv.head? = some sep) := by
  intro T
  induction T with
  | nil =>
    intro h t heq
    simp only [splitSep] at heq
    injection heq with h1 _
    exact ⟨[], by rw [← h1]; rfl, Or.inl rfl⟩
  | cons c rest ih =>
    intro h t heq
    simp only [splitSep] at heq
    by_cases hc : c = sep
    · rw [if_pos hc] at heq
      injection heq with h1 _
      exact ⟨c :: rest, by rw [← h1]; rfl, Or.inr (by simp [hc])⟩
    · rw [if_neg hc] at heq
      cases hsp : splitSep sep rest with
      | nil => exact absurd hsp (splitSep_ne_nil sep rest)
      | cons h0 t0 =>
        rw [hsp] at heq
        dsimp only at heq
        injection heq with h1 h2
        obtain ⟨vv, hvv, hcond⟩ := ih h0 t0 hsp
        refine ⟨vv, ?_, hcond⟩
        rw [← h1, List.cons_append, ← hvv]

/-- Every later piece of a separator split sits between separators. -/
theorem splitSep_tail_context (sep : Char) :
    ∀ T p, p ∈ (splitSep sep T).tail →
      ∃ uu vv, T = uu ++ (p ++ vv) ∧ uu.getLast? = some sep ∧
        (vv = [] ∨ vv.head? = some sep) := by
  intro T
  induction T with
  | nil =>
    intro p hp
    simp [splitSep] at hp
  | cons c rest ih =>
    intro p hp
    simp only [splitSep] at hp
    by_cases hc : c = sep
    · rw [if_pos hc, List.tail_cons] at hp
      cases hsp : splitSep sep rest with
      | nil => exact absurd hsp (splitSep_ne_nil sep rest)
      | cons h0 t0 =>
        rw [hsp] at hp
        rcases List.mem_cons.mp hp with heq | htl
        · subst heq
          obtain ⟨vv, hvv, hcond⟩ := splitSep_head_context sep rest p t0 hsp
          refine ⟨[c], vv, by rw [hvv]; rfl, by simp [hc], hcond⟩
        · obtain ⟨uu, vv, hT, hlast, hcond⟩ :=
            ih p (by rw [hsp, List.tail_cons]; exact htl)
          refine ⟨c :: uu, vv, by rw [List.cons_append, ← hT], ?_, hcond⟩
          cases uu with
          | nil => simp at hlast
          | cons u0 ut =>
            rw [List.getLast?_cons_cons]
            exact hlast
    · rw [if_neg hc] at hp
      cases hsp : splitSep sep rest with
      | nil => exact absurd hsp (splitSep_ne_nil sep rest)
      | cons h0 t0 =>
        rw [hsp] at hp
        dsimp only at hp
        obtain ⟨uu, vv, hT, hlast, hcond⟩ :=
          ih p (by rw [hsp, List.tail_cons]; exact hp)
        refine ⟨c :: uu, vv, by rw [List.cons_append, ← hT], ?_, hcond⟩
        cases uu with
        | nil => simp at hlast
        | cons u0 ut =>
          rw [List.getLast?_cons_cons]
          exact hlast

/-- Every piece of a separator split sits in the text with the separator,
or an end of the text, on both sides. -/
theorem splitSep_context (sep : Char) (T p : List Char)
    (hp : p ∈ splitSep sep T) :
    ∃ uu vv, T = uu ++ (p ++ vv) ∧
      (uu = [] ∨ uu.getLast? = some sep) ∧
      (vv = [] ∨ vv.head? = some sep) := by
  cases hsp : splitSep sep T with
  | nil => exact absurd hsp (splitSep_ne_nil sep T)
  | cons h0 t0 =>
    rw [hsp] at hp
    rcases List.mem_cons.mp hp with heq | htl
    · subst heq
      obtain ⟨vv, hvv, hcond⟩ := splitSep_head_context sep T p t0 hsp
      exact ⟨[], vv, by rw [hvv]; rfl, Or.inl rfl, hcond⟩
    · obtain ⟨uu, vv, hT, hlast, hcond⟩ :=
        splitSep_tail_context sep T p (by rw [hsp, List.tail_cons]; exact htl)
      exact ⟨uu, vv, hT, Or.inr hlast, hcond⟩

/-- An occurrence in a piece is an occurrence in any surrounding text whose
cut points are non-word characters (or text ends). -/
theorem occur_context {p ref uu vv : List Char} (h : Occur p ref)
    (hu : uu = [] ∨ ∃ c, uu.getLast? = some c ∧ isWordC c = false)
    (hv : vv = [] ∨ ∃ c, vv.head? = some c ∧ isWordC c = false) :
    Occur (uu ++ (p ++ vv)) ref := by
  obtain ⟨u, ls, w, ds, ol, v, hdec, hok, hlb, hrb, href⟩ := h
  refine ⟨uu ++ u, ls, w, ds, ol, v ++ vv, ?_, hok, ?_, ?_, href⟩
  · rw [hdec]
    simp [List.append_assoc]
  · rcases hlb with rfl | ⟨cl, hcl, hwcl⟩
    · rw [List.append_nil]
      exact hu
    · refine Or.inr ⟨cl, ?_, hwcl⟩
      rw [List.getLast?_append, hcl]
      rfl
  · rcases hrb with rfl | ⟨ch, hch, hwch⟩
    · rw [List.nil_append]
      exact hv
    · refine Or.inr ⟨ch, ?_, hwch⟩
      cases v with
      | nil => simp at hch
      | cons e t =>
        rw [List.cons_append]
        exact hch

end UIUC

namespace UIUC

theorem leafRefsList_append (xs ys : List ReqNode) :
    leafRefsList (xs ++ ys) = leafRefsList xs ++ leafRefsList ys := by
  induction xs with
  | nil => rfl
  | cons n ns ih => simp [leafRefsList, ih]

theorem mem_leafRefsList {ref : String} :
    ∀ {ns : List ReqNode}, ref ∈ leafRefsList ns → ∃ n ∈ ns, ref ∈ leafRefs n := by
  intro ns
  induction ns with
  | nil => intro h; simp [leafRefsList] at h
  | cons n ns ih =>
    intro h
    simp only [leafRefsList] at h
    rcases List.mem_append.mp h with h1 | h2
    · exact ⟨n, List.mem_cons_self n ns, h1⟩
    · obtain ⟨m, hm, hr⟩ := ih h2
      exact ⟨m, List.mem_cons_of_mem n hm, hr⟩

theorem leafRefsList_map_courses : ∀ xs : List Span,
    leafRefsList (xs.map fun t => ReqNode.COURSE t.1) = xs.map fun t => t.1 := by
  intro xs
  induction xs with
  | nil => rfl
  | cons t ts ih => simp [leafRefsList, leafRefs, ih]

theorem mem_spans_of_mem_map {cc : List Char} {ref : String} {spans : List Span}
    (hsub : ∀ t ∈ spans, t ∈ findCourseSpans cc)
    (h : ref ∈ spans.map fun t => t.1) :
    ∃ s e, (ref, s, e) ∈ findCourseSpans cc := by
  obtain ⟨t, ht, hteq⟩ := List.mem_map.mp h
  exact ⟨t.2.1, t.2.2, by rw [← hteq]; exact hsub t ht⟩

/-- Leaves of a comma-segment group come from the scanner run on the
segment. -/
theorem segItem_leaf {seg : List Char} {n : ReqNode} {ref : String}
    (h : segItem seg = some n) (hr : ref ∈ leafRefs n) :
    ∃ s e, (ref, s, e) ∈ findCourseSpans seg := by
  simp only [segItem] at h
  split_ifs at h
  · cases h
    simp only [leafRefs] at hr
    rw [leafRefsList_map_courses] at hr
    exact mem_spans_of_mem_map (fun t ht => ht) hr
  · cases h
    simp only [leafRefs] at hr
    rw [leafRefsList_map_courses] at hr
    exact mem_spans_of_mem_map (fun t ht => ht) hr
  · cases h
    simp only [leafRefs] at hr
    rw [leafRefsList_map_courses] at hr
    exact mem_spans_of_mem_map (fun t ht => ht) hr

/-- Leaves of the mixed path come from the clause's own scanner output or
from the scanner run on a comma segment. -/
theorem mixedPath_leaf {cc : List Char} {courses : List Span} {ref : String}
    (h : ref ∈ leafRefs (mixedPath cc courses)) :
    (ref ∈ courses.map fun t => t.1) ∨
    ∃ seg ∈ mixedSegs cc, ∃ s e, (ref, s, e) ∈ findCourseSpans seg := by
  have h' : ref ∈ leafRefsList (mixedSubitems cc courses) := by
    simp only [mixedPath] at h
    split_ifs at h
    · simpa [leafRefs] using h
    · simpa [leafRefs] using h
    · simpa [leafRefs] using h
  clear h
  simp only [mixedSubitems] at h'
  split_ifs at h' with hemp
  · rw [leafRefsList_map_courses] at h'
    exact Or.inl h'
  · right
    obtain ⟨n, hn, hrn⟩ := mem_leafRefsList h'
    obtain ⟨seg, hseg, hsi⟩ := List.mem_filterMap.mp hn
    exact ⟨seg, hseg, segItem_leaf hsi hrn⟩

end UIUC

namespace UIUC

/-- Leaves of the connector-driven path come from the clause's scanner
output or from the scanner run on a comma segment. -/
theorem connectorsPath_leaf {cc : List Char} {courses : List Span} {ref : String}
    (h : ref ∈ leafRefs (connectorsPath cc courses)) :
    (ref ∈ courses.map fun t => t.1) ∨
    ∃ seg ∈ mixedSegs cc, ∃ s e, (ref, s, e) ∈ findCourseSpans seg := by
  simp only [connectorsPath] at h
  split_ifs at h
  · simp only [leafRefs] at h
    rw [leafRefsList_map_courses] at h
    exact Or.inl h
  · simp only [leafRefs] at h
    rw [leafRefsList_map_courses] at h
    exact Or.inl h
  · simp only [leafRefs] at h
    rw [leafRefsList_map_courses] at h
    exact Or.inl h
  · have h2 : ref ∈ leafRefsList (courses.map fun t => ReqNode.COURSE t.1) := by
      rcases hcs : courses.map (fun t => ReqNode.COURSE t.1) with _ | ⟨x, _ | ⟨y, ys⟩⟩
      · rw [hcs] at h
        dsimp only at h
        simp [leafRefs, leafRefsList] at h
      · rw [hcs] at h
        dsimp only at h
        rw [hcs]
        simp only [leafRefsList, List.append_nil]
        exact h
      · rw [hcs] at h
        dsimp only at h
        rw [hcs]
        simpa [leafRefs] using h
    rw [leafRefsList_map_courses] at h2
    exact Or.inl h2
  · exact mixedPath_leaf h

/-- Both alternatives land in the clause's scanner output: segment
occurrences transfer along normalization and comma boundaries back into
the clause text, where the scanner is complete. -/
theorem leafOK_of_alt {cc : List Char} {ref : String}
    (h : (ref ∈ (findCourseSpans cc).map fun t => t.1) ∨
      ∃ seg ∈ mixedSegs cc, ∃ s e, (ref, s, e) ∈ findCourseSpans seg) :
    ∃ s e, (ref, s, e) ∈ findCourseSpans cc := by
  rcases h with h | ⟨seg, hseg, s, e, hmem⟩
  · exact mem_spans_of_mem_map (fun t ht => ht) h
  · have hocc : Occur seg ref.data := findCourseSpans_sound hmem
    obtain ⟨hm, _⟩ := List.mem_filter.mp hseg
    obtain ⟨p, hp, hpeq⟩ := List.mem_map.mp hm
    rw [← hpeq] at hocc
    have hop : Occur p ref.data := occur_of_normSpace hocc
    obtain ⟨uu, vv, hT, hu, hv⟩ := splitSep_context ',' cc p hp
    have hocc2 : Occur cc ref.data := by
      rw [hT]
      refine occur_context hop ?_ ?_
      · rcases hu with h0 | h0
        · exact Or.inl h0
        · exact Or.inr ⟨',', h0, by decide⟩
      · rcases hv with h0 | h0
        · exact Or.inl h0
        · exact Or.inr ⟨',', h0, by decide⟩
    obtain ⟨s', e', hm2⟩ := findCourseSpans_complete hocc2
    exact ⟨s', e', hm2⟩

/-- Every leaf of a parsed clause was found by the scanner on the
normalized clause. -/
theorem parseClause_leaf {clause : List Char} {ref : String}
    (h : ref ∈ leafRefs (parseClause clause)) :
    ∃ s e, (ref, s, e) ∈ findCourseSpans (normSpace clause) := by
  simp only [parseClause] at h
  split_ifs at h with hemp
  · simp [leafRefs] at h
  · cases hph : findPhraseEnd (normSpace clause) with
    | none =>
      rw [hph] at h
      dsimp only at h
      exact leafOK_of_alt (connectorsPath_leaf h)
    | some stIdx =>
      rw [hph] at h
      dsimp only at h
      split_ifs at h
      · exact leafOK_of_alt (connectorsPath_leaf h)
      · simp only [leafRefs] at h
        rw [leafRefsList_map_courses] at h
        exact mem_spans_of_mem_map (fun t ht => List.mem_of_mem_filter ht) h
      · simp only [leafRefs] at h
        rw [leafRefsList_append] at h
        rcases List.mem_append.mp h with h1 | h2
        · rw [leafRefsList_map_courses] at h1
          exact mem_spans_of_mem_map (fun t ht => List.mem_of_mem_filter ht) h1
        · simp only [leafRefsList, List.append_nil] at h2
          simp only [leafRefs] at h2
          rw [leafRefsList_map_courses] at h2
          exact mem_spans_of_mem_map (fun t ht => List.mem_of_mem_filter ht) h2

end UIUC

namespace UIUC

theorem foldGroups_leaf {gs : List ReqNode} {ref : String}
    (h : ref ∈ leafRefs (foldGroups gs)) : ∃ g ∈ gs, ref ∈ leafRefs g := by
  cases gs with
  | nil => exact absurd (h : ref ∈ ([] : List String)) (List.not_mem_nil ref)
  | cons g gs' =>
    cases gs' with
    | nil => exact ⟨g, List.mem_cons_self g [], (h : ref ∈ leafRefs g)⟩
    | cons g2 gs'' =>
      exact mem_leafRefsList (h : ref ∈ leafRefsList (g :: g2 :: gs''))

/-- A leaf of a parsed clause is in the scanner output of the normalized
clause and occurs, as a course-token-pattern match, in the whole text the
clause came from. -/
theorem clause_leaf_transfer {text : List Char} {ref : String} {c : List Char}
    (hcin : c ∈ clausesOf text) (hrg : ref ∈ leafRefs (parseClause c)) :
    (∃ s e, (ref, s, e) ∈ findCourseSpans (normSpace c)) ∧ Occur text ref.data := by
  obtain ⟨s, e, hmem⟩ := parseClause_leaf hrg
  refine ⟨⟨s, e, hmem⟩, ?_⟩
  have hocc1 : Occur (normSpace c) ref.data := findCourseSpans_sound hmem
  have hocc2 : Occur c ref.data := occur_of_normSpace hocc1
  have hm : c ∈ (splitSep ';' text).map normSpace := (List.mem_filter.mp hcin).1
  obtain ⟨p, hp, hpeq⟩ := List.mem_map.mp hm
  rw [← hpeq] at hocc2
  have hop : Occur p ref.data := occur_of_normSpace hocc2
  obtain ⟨uu, vv, hT, hu, hv⟩ := splitSep_context ';' text p hp
  rw [hT]
  refine occur_context hop ?_ ?_
  · rcases hu with h0 | h0
    · exact Or.inl h0
    · exact Or.inr ⟨';', h0, by decide⟩
  · rcases hv with h0 | h0
    · exact Or.inl h0
    · exact Or.inr ⟨';', h0, by decide⟩

end UIUC

namespace UIUC

/-- **C6.**  Every course reference at a `COURSE` leaf of the output
`hard` or `coreq_ok` tree was found by the course-token scanner at a
concrete offset in the (normalized) semicolon clause that produced it,
and is an occurrence of the course-token pattern (2–4 uppercase letters,
optional whitespace, 2–3 digits, optional single trailing uppercase
letter, with word boundaries) in the original raw text: no parsing stage
fabricates course references. -/
theorem claim6_no_fabricated_refs (text : List Char) (ref : String)
    (h : ref ∈ leafRefs (parsePrereqText text).hard ∨
         ref ∈ leafRefs (parsePrereqText text).coreq_ok) :
    ∃ cl ∈ clausesOf text,
      (∃ s e, (ref, s, e) ∈ findCourseSpans (normSpace cl)) ∧
      Occur text ref.data := by
  have hhard : (parsePrereqText text).hard =
      foldGroups (routeAux (clausesOf text)).1 := rfl
  have hcoreq : (parsePrereqText text).coreq_ok =
      foldGroups (routeAux (clausesOf text)).2 := rfl
  rcases h with h | h
  · rw [hhard] at h
    obtain ⟨g, hg, hrg⟩ := foldGroups_leaf h
    rw [routeAux_eq] at hg
    obtain ⟨c, hc, hceq⟩ := List.mem_map.mp hg
    have hcin : c ∈ clausesOf text := List.mem_of_mem_filter hc
    rw [← hceq] at hrg
    obtain ⟨hok, hocc⟩ := clause_leaf_transfer hcin hrg
    exact ⟨c, hcin, hok, hocc⟩
  · rw [hcoreq] at h
    obtain ⟨g, hg, hrg⟩ := foldGroups_leaf h
    rw [routeAux_eq] at hg
    obtain ⟨c, hc, hceq⟩ := List.mem_map.mp hg
    have hcin : c ∈ clausesOf text := List.mem_of_mem_filter hc
    rw [← hceq] at hrg
    obtain ⟨hok, hocc⟩ := clause_leaf_transfer hcin hrg
    exact ⟨c, hcin, hok, hocc⟩

/-- Concrete instantiation of the no-fabrication theorem at the input
`"MATH 231"`. -/
theorem claim6_no_fabricated_refs_witness :
    ("MATH 231" ∈ leafRefs (parsePrereqText "MATH 231".data).hard ∨
     "MATH 231" ∈ leafRefs (parsePrereqText "MATH 231".data).coreq_ok) ∧
    (∃ cl ∈ clausesOf "MATH 231".data,
      (∃ s e, (("MATH 231" : String), s, e) ∈ findCourseSpans (normSpace cl)) ∧
      Occur "MATH 231".data "MATH 231".data) :=
  ⟨by decide, claim6_no_fabricated_refs "MATH 231".data "MATH 231" (by decide)⟩

end UIUC
